import Mathlib

/-!
Verification development for the Scene Mapping & Diagram Partitioning Engine
(`Server/src/services/tools/orchestrate_mapping.py` and
`Server/src/services/resources/scene_outline.py`).

Modelling conventions (shallow embedding of the Python source):
* An entity record (`Rec`) models one element of the `objects` list.  Optional
  string fields (`hierarchyPath`, `globalId`, `tag`, `prefabPath`) are modelled
  as `String` with `""` standing for Python-absent/`None`/empty — the source
  only ever tests them for truthiness (`if not path`, `path or ""`), which
  identifies those cases.  `layer` is modelled as `Option String` carrying the
  already-stringified scalar, `none` for absent, because the source applies
  `str(layer)` before use.
* Python dicts keyed by path are modelled as association lists
  (`List (String × Rec)`) with Python's insertion-order/overwrite semantics
  (`insertKeyed`), or as update-closures (`String → Option Rec`) where only
  lookups matter.
* Counting dicts (`tag_counts` etc.) are modelled as finitely-supported count
  functions built by the same left fold of point updates the source performs;
  only counts, never dict iteration order, are stated in the claims.
* Recursions that the source realizes through shared mutable node dicts
  (`_build_tree`'s child linking) or untyped recursion (`_count_subtree`,
  `_sort_tree`) are realized with explicit fuel (always instantiated above the
  forest depth bound, with fuel-irrelevance proved) or well-founded recursion.
* Machine integers: every count in the source is a Python `int` holding a
  non-negative value (list lengths, histogram counts), modelled as `Nat`;
  pagination offsets may in principle be any integer, modelled as `Int`.
-/

/-- One entity record from the paginated scene index: the fields of one
`objects` entry (with its nested `object` dict flattened) that the mapping
engine reads.  `path` is `object.hierarchyPath`, `gid` is `object.globalId`,
`prefabPath` is `object.prefabPath`; `""` models an absent/None/empty value. -/
structure Rec where
  path : String
  gid : String
  tag : String
  layer : Option String
  prefabPath : String
  componentTypeNames : List String
deriving DecidableEq

/-- Helper to build a record carrying only a path and an identity, the two
fields the tree/diagram/relationship claims exercise. -/
def mkRec (path gid : String) : Rec :=
  ⟨path, gid, "", none, "", []⟩

/-- Python `"/" in path`. -/
def hasSlash (p : String) : Bool :=
  p.data.contains '/'

/-- Python `path.rsplit("/", 1)[0]`: everything before the last `/`.
(When `p` has no slash, `rsplit` returns `[p]` and the source never takes
this branch; the definition then returns `""`, which is unused.) -/
def parentPath (p : String) : String :=
  ⟨((p.data.reverse.dropWhile (fun c => c ≠ '/')).drop 1).reverse⟩

/-- Python `childPath.startswith(rootPath + "/")`-style tests, modelled on the
underlying character list. -/
def strStartsWith (s pre : String) : Bool :=
  pre.data.isPrefixOf s.data

/-- The result dict of `_suggest_diagram_counts` (the Diagram Planner). -/
structure DiagramSuggestion where
  diagramCount : Nat
  targetNodesPerDiagram : Nat
deriving DecidableEq

/-- `_suggest_diagram_counts(total)` (identical in `orchestrate_mapping.py`
and `scene_outline.py`): fixed threshold table for the diagram count, then
`max(30, min(150, (total // max(count, 1)) if total else 0))`. -/
def suggestDiagramCounts (total : Nat) : DiagramSuggestion :=
  let count : Nat :=
    if total ≤ 80 then 1
    else if total ≤ 200 then 2
    else if total ≤ 400 then 3
    else 4
  { diagramCount := count
    targetNodesPerDiagram :=
      max 30 (min 150 (if total ≠ 0 then total / max count 1 else 0)) }

/-- A tree node of the reconstructed forest: the node dict `_build_tree`
creates (its record payload) together with its exclusively owned `children`
list. -/
inductive Node where
  | mk (entry : Rec) (children : List Node)

/-- The record payload of a node. -/
def Node.entry : Node → Rec
  | .mk e _ => e

/-- The children list of a node. -/
def Node.children : Node → List Node
  | .mk _ cs => cs

/-- The key `(c.get("object") or {}).get("hierarchyPath", "")` used by both
sorters and the diagram partitioner: the node's path, `""` when absent. -/
def nodePath (n : Node) : String :=
  n.entry.path

/-- `_count_subtree(node)`: `1` plus the recursive count of all children
(identical in both source files). -/
def countSubtree : Node → Nat
  | .mk _ cs => 1 + (cs.attach.map (fun c => countSubtree c.1)).sum
decreasing_by
  have h := List.sizeOf_lt_of_mem c.2
  simp only [Node.mk.sizeOf_spec]
  omega

/-- Structural induction over forests: a node satisfies `motive` once all its
children do. -/
def nodeInduction {motive : Node → Prop}
    (h : ∀ e cs, (∀ c ∈ cs, motive c) → motive (Node.mk e cs)) : ∀ n, motive n
  | .mk e cs => h e cs (fun c hc => nodeInduction h c)
decreasing_by
  have h2 := List.sizeOf_lt_of_mem hc
  simp only [Node.mk.sizeOf_spec]
  omega

/-- One step of Python dict assignment `nodes[path] = node`: overwrite the
value if the key is present (keeping its first-insertion position), otherwise
append the new pair. -/
def insertKeyed (m : List (String × Rec)) (p : String) (o : Rec) : List (String × Rec) :=
  if (m.map Prod.fst).contains p then
    m.map (fun kv => if kv.1 = p then (p, o) else kv)
  else
    m ++ [(p, o)]

/-- The first pass of `_build_tree`: the `nodes` dict, keyed by
`hierarchyPath`, skipping records with a falsy path.  Association list in
Python dict insertion order. -/
def buildNodesMap (objs : List Rec) : List (String × Rec) :=
  objs.foldl (fun m o => if o.path = "" then m else insertKeyed m o.path o) []

/-- Recursive realization of `_build_tree`'s second pass seen from one node:
the children of the node keyed `kv.1` are exactly the dict entries whose path
has a separator and whose trimmed-parent path equals `kv.1`, in dict order.
`fuel` bounds the recursion depth; `buildTree` instantiates it above the
forest depth. -/
def buildNodeF (m : List (String × Rec)) : Nat → String × Rec → Node
  | 0, kv => Node.mk kv.2 []
  | fuel + 1, kv =>
    Node.mk kv.2
      ((m.filter (fun c => hasSlash c.1 && parentPath c.1 == kv.1)).map (buildNodeF m fuel))

/-- `_build_tree(objects)`: returns the forest of roots (a dict entry is a
root iff its path has no separator or its trimmed-parent path is not a dict
key) and the path-keyed node dict itself. -/
def buildTree (objs : List Rec) : List Node × List (String × Rec) :=
  let m := buildNodesMap objs
  ((m.filter (fun kv => !hasSlash kv.1 || !((m.map Prod.fst).contains (parentPath kv.1)))).map
      (buildNodeF m (m.length + 1)),
   m)

/-! Key-level view of the forest: the same structure expressed purely on the
list of dict keys, which the partition/counting proofs reason about. -/

/-- The keys that `_build_tree` links as children of key `p`. -/
def childKeys (K : List String) (p : String) : List String :=
  K.filter (fun q => hasSlash q && parentPath q == p)

/-- The root condition of `_build_tree` for key `p`. -/
def isRootKey (K : List String) (p : String) : Bool :=
  !hasSlash p || !(K.contains (parentPath p))

/-- All root keys, in dict order. -/
def rootKeys (K : List String) : List String :=
  K.filter (isRootKey K)

/-- Subtree size of key `p` (the key-level image of `_count_subtree`),
with explicit recursion fuel. -/
def sizeF (K : List String) : Nat → String → Nat
  | 0, _ => 1
  | fuel + 1, p => 1 + ((childKeys K p).map (sizeF K fuel)).sum

/-- The ancestor chain of key `q`: climb to the trimmed-parent key while it
exists in `K`, with explicit fuel.  The chain starts at `q` and ends at the
root that owns `q`. -/
def chainF (K : List String) : Nat → String → List String
  | 0, q => [q]
  | fuel + 1, q =>
    if hasSlash q && K.contains (parentPath q) then q :: chainF K fuel (parentPath q) else [q]

/-- Number of keys strictly longer than `p` — the decreasing measure for
descending (children-ward) recursion. -/
def keysLonger (K : List String) (p : String) : Nat :=
  (K.filter (fun q => p.length < q.length)).length

/-- Number of keys strictly shorter than `q` — the decreasing measure for
ascending (parent-ward) recursion. -/
def keysShorter (K : List String) (q : String) : Nat :=
  (K.filter (fun k => k.length < q.length)).length

/-- Canonical subtree size: `K.length + 1` fuel always suffices. -/
def subtreeKeyCount (K : List String) (p : String) : Nat :=
  sizeF K (K.length + 1) p

/-- Canonical ancestor chain: `K.length + 1` fuel always suffices. -/
def keyChain (K : List String) (q : String) : List String :=
  chainF K (K.length + 1) q

/-- Number of dict keys whose ancestor chain passes through `p`: the size of
`p`'s subtree counted at key level. -/
def fiberCount (K : List String) (p : String) : Nat :=
  (K.filter (fun q => (keyChain K q).contains p)).length

/-- The spec's "paths unique per ingestion" invariant: the non-empty record
paths are pairwise distinct. -/
def pathsNodup (objs : List Rec) : Prop :=
  ((objs.filter (fun o => o.path ≠ "")).map (fun o => o.path)).Nodup

/-! The two Tree Sorter implementations. -/

/-- The comparison key of both sorters: ascending node path. -/
def pathLe (a b : Node) : Prop :=
  nodePath a ≤ nodePath b

instance : DecidableRel pathLe := fun a b => by
  unfold pathLe; infer_instance

/-- One sorting pass `nodes.sort(key=...hierarchyPath...)` (Python's sort is
stable; `insertionSort` is the stable sort of the library). -/
def sortByPath (ns : List Node) : List Node :=
  List.insertionSort pathLe ns

/-- The per-node effect of `orchestrate_mapping._sort_tree` on a node it
recurses into: that function sorts the node's children list and then recurses
into each child, so the node's final children are the sorted children,
each recursively processed. -/
def sortNodeO : Node → Node
  | .mk e cs => Node.mk e (((sortByPath cs).attach).map (fun c => sortNodeO c.1))
decreasing_by
  have hmem := (List.perm_insertionSort pathLe _).mem_iff.mp (by simpa [sortByPath] using c.2)
  have h2 := List.sizeOf_lt_of_mem hmem
  simp only [Node.mk.sizeOf_spec]
  omega

/-- `orchestrate_mapping._sort_tree(nodes)`: sorts the top-level list itself,
then recursively sorts every node's children. -/
def sortTreeO (ns : List Node) : List Node :=
  (sortByPath ns).map sortNodeO

/-- The per-node effect of `scene_outline._sort_tree` on a node of its
argument list: `node["children"].sort(...)` followed by the recursive call on
the sorted children. -/
def sortNodeS : Node → Node
  | .mk e cs => Node.mk e (((sortByPath cs).attach).map (fun c => sortNodeS c.1))
decreasing_by
  have hmem := (List.perm_insertionSort pathLe _).mem_iff.mp (by simpa [sortByPath] using c.2)
  have h2 := List.sizeOf_lt_of_mem hmem
  simp only [Node.mk.sizeOf_spec]
  omega

/-- `scene_outline._sort_tree(nodes)`: sorts each node's children recursively
but never reorders the argument list itself — in particular the top-level
sequence of roots keeps its incoming order. -/
def sortTreeS (ns : List Node) : List Node :=
  ns.map sortNodeS

instance : IsTotal Node pathLe :=
  ⟨fun a b => le_total (nodePath a) (nodePath b)⟩

instance : IsTrans Node pathLe :=
  ⟨fun _ _ _ hab hbc => le_trans hab hbc⟩

/-- The ordering contract of the Tree Sorter: every sibling list of the
forest — including the top-level one — is in ascending path order. -/
def AllLevelsSorted (ns : List Node) : Prop :=
  List.Sorted pathLe ns ∧ ∀ n ∈ ns, AllLevelsSorted n.children
termination_by sizeOf ns
decreasing_by
  have h1 := List.sizeOf_lt_of_mem (by assumption : n ∈ ns)
  cases n with
  | mk e cs =>
    simp only [Node.children, Node.mk.sizeOf_spec] at *
    omega

/-! The Grouping Aggregator (`_build_grouping_lenses`, identical in both
source files).  Count dicts are modelled as count functions built by the same
left-to-right point updates. -/

/-- Python `entry.get("tag") or "Untagged"`. -/
def effectiveTag (o : Rec) : String :=
  if o.tag = "" then "Untagged" else o.tag

/-- Python `str(layer) if layer is not None else "0"` (stringification is
pre-applied in the model). -/
def layerKey (o : Rec) : String :=
  match o.layer with
  | some s => s
  | none => "0"

/-- `_normalize_component_name`: keep the substring after the last `.`. -/
def normalizeComponentName (s : String) : String :=
  if s = "" then ""
  else if s.data.contains '.' then ⟨(s.data.reverse.takeWhile (fun c => c ≠ '.')).reverse⟩
  else s

/-- The per-record normalized component set
`{_normalize_component_name(name) for name in raw_components if name}`,
modelled as a duplicate-free list (set iteration order does not affect the
counts stated about it). -/
def normalizedComponents (o : Rec) : List String :=
  ((o.componentTypeNames.filter (fun s => s ≠ "")).map normalizeComponentName).dedup

/-- Python `(obj.get("hierarchyPath") or "").count("/")`. -/
def depthOf (o : Rec) : Nat :=
  o.path.data.count '/'

/-- One dict update `m[k] = m.get(k, 0) + 1` on a string-keyed count table. -/
def bumpS (m : String → Nat) (k : String) : String → Nat :=
  fun x => if x = k then m x + 1 else m x

/-- One dict update `m[k] = m.get(k, 0) + 1` on an integer-keyed count table. -/
def bumpN (m : Nat → Nat) (k : Nat) : Nat → Nat :=
  fun x => if x = k then m x + 1 else m x

/-- The `tag_counts` table of `_build_grouping_lenses`. -/
def tagCounts (objs : List Rec) : String → Nat :=
  objs.foldl (fun m o => bumpS m (effectiveTag o)) (fun _ => 0)

/-- The `layer_counts` table of `_build_grouping_lenses`. -/
def layerCounts (objs : List Rec) : String → Nat :=
  objs.foldl (fun m o => bumpS m (layerKey o)) (fun _ => 0)

/-- The `prefab_counts` table of `_build_grouping_lenses`: counted only when
`prefabPath` is truthy. -/
def prefabCounts (objs : List Rec) : String → Nat :=
  objs.foldl (fun m o => if o.prefabPath = "" then m else bumpS m o.prefabPath) (fun _ => 0)

/-- The `component_counts` table of `_build_grouping_lenses`: one contribution
per distinct normalized non-empty component name per record. -/
def componentCounts (objs : List Rec) : String → Nat :=
  objs.foldl
    (fun m o => (normalizedComponents o).foldl (fun m2 c => if c = "" then m2 else bumpS m2 c) m)
    (fun _ => 0)

/-- The `depth_counts` table of `_build_grouping_lenses`: keyed by the number
of separators in the (possibly empty) path. -/
def depthCounts (objs : List Rec) : Nat → Nat :=
  objs.foldl (fun m o => bumpN m (depthOf o)) (fun _ => 0)

/-! The Diagram Partitioner (`_build_diagrams`). -/

/-- One diagram dict of `_build_diagrams`. -/
structure Diagram where
  title : String
  rootPaths : List String
  objectIds : List String
  nodeCount : Nat
deriving DecidableEq

/-- The sort key `key=lambda d: (d["nodeCount"], d["title"])` of the greedy
loop, as an ascending total relation. -/
def diagOrder (a b : Diagram) : Prop :=
  a.nodeCount < b.nodeCount ∨ (a.nodeCount = b.nodeCount ∧ a.title ≤ b.title)

instance : DecidableRel diagOrder := fun a b => by
  unfold diagOrder; infer_instance

/-- The sort key `key=lambda p: (-root_sizes.get(p, 0), p)` of the root
ordering: descending size, then ascending path. -/
def rootOrder (sizes : String → Nat) (p q : String) : Prop :=
  sizes q < sizes p ∨ (sizes p = sizes q ∧ p ≤ q)

instance (sizes : String → Nat) : DecidableRel (rootOrder sizes) := fun p q => by
  unfold rootOrder; infer_instance

/-- The fresh diagram list `[{"title": f"Diagram {i+1}", ...} for i in range(n)]`. -/
def mkEmptyDiagrams (n : Nat) : List Diagram :=
  (List.range n).map (fun i => ⟨"Diagram " ++ toString (i + 1), [], [], 0⟩)

/-- The `root_paths` list collected by `_build_diagrams` (truthy paths only,
in root order). -/
def rootPathsOf (roots : List Node) : List String :=
  roots.filterMap (fun r => if nodePath r = "" then none else some (nodePath r))

/-- The `root_sizes` dict of `_build_diagrams` (`root_sizes.get(p, 0)`
semantics; a later duplicate path overwrites an earlier one, as in Python). -/
def rootSizesFun (roots : List Node) : String → Nat :=
  roots.foldl
    (fun m r =>
      if nodePath r = "" then m
      else fun p => if p = nodePath r then countSubtree r else m p)
    (fun _ => 0)

/-- One greedy step: re-sort the running diagrams by `(nodeCount, title)` and
give the next root to the first (emptiest) one. -/
def assignRoot (sizes : String → Nat) (ds : List Diagram) (p : String) : List Diagram :=
  match List.insertionSort diagOrder ds with
  | [] => []
  | d :: rest =>
    { d with rootPaths := d.rootPaths ++ [p], nodeCount := d.nodeCount + sizes p } :: rest

/-- Whether a record path belongs to a diagram: some assigned root path is an
exact match or a `rootPath + "/"` ancestor of it. -/
def matchesDiagram (d : Diagram) (path : String) : Bool :=
  d.rootPaths.any (fun rp => path == rp || strStartsWith path (rp ++ "/"))

/-- The member-tagging inner loop of `_build_diagrams`: append the identity
to the first diagram (in current list order) that matches the record's path;
at most one diagram receives it. -/
def addMember : List Diagram → String → String → List Diagram
  | [], _, _ => []
  | d :: ds, path, gid =>
    if matchesDiagram d path then
      { d with objectIds := d.objectIds ++ [gid] } :: ds
    else
      d :: addMember ds path gid

/-- `_build_diagrams(objects, roots, diagram_count)`: degenerate empty-roots
case, clamped diagram count, greedy size-balanced root assignment, then the
member-tagging pass over all records with a truthy `globalId`. -/
def buildDiagrams (objs : List Rec) (roots : List Node) (diagramCount : Nat) : List Diagram :=
  let rootPaths := rootPathsOf roots
  let rootSizes := rootSizesFun roots
  if rootPaths.isEmpty then
    mkEmptyDiagrams (max 1 diagramCount)
  else
    let dc := min (max 1 diagramCount) rootPaths.length
    let init := mkEmptyDiagrams dc
    let assigned := (List.insertionSort (rootOrder rootSizes) rootPaths).foldl
      (assignRoot rootSizes) init
    objs.foldl (fun ds o => if o.gid = "" then ds else addMember ds o.path o.gid) assigned

/-! The Relationship Deriver (`_build_hierarchy_rows`). -/

/-- One mapping-table row.  The float field `confidence` (constantly `1.0` in
the source) is not modelled; every other field is. -/
structure HierarchyRow where
  subject : Rec
  predicate : String
  object : Rec
  evidence : List String
  subsystem : String
  condition : String
deriving DecidableEq

/-- The `path_to_ref` dict of `_build_hierarchy_rows`: last-wins lookup from
truthy path to its record. -/
def pathToRef (objs : List Rec) : String → Option Rec :=
  objs.foldl
    (fun m o => if o.path = "" then m else fun k => if k = o.path then some o else m k)
    (fun _ => none)

/-- One iteration of the row-emitting loop of `_build_hierarchy_rows`,
carrying `(rows, seen)`: skip records without a truthy nested path or truthy
identity, skip when the trimmed-parent lookup fails or the parent has no
truthy identity, deduplicate on `f"{parent_id}|part_of|{child_id}"`. -/
def hierarchyRowStep (ref : String → Option Rec) (condition : String)
    (acc : List HierarchyRow × List String) (child : Rec) :
    List HierarchyRow × List String :=
  if child.path = "" ∨ hasSlash child.path = false ∨ child.gid = "" then acc
  else
    match ref (parentPath child.path) with
    | none => acc
    | some parent =>
      if parent.gid = "" then acc
      else
        let key := parent.gid ++ "|part_of|" ++ child.gid
        if acc.2.contains key then acc
        else
          (acc.1 ++ [{ subject := parent, predicate := "part_of", object := child,
                       evidence := [], subsystem := "Scene", condition := condition }],
           acc.2 ++ [key])

/-- `_build_hierarchy_rows(objects, condition)`. -/
def buildHierarchyRows (objs : List Rec) (condition : String) : List HierarchyRow :=
  (objs.foldl (hierarchyRowStep (pathToRef objs) condition) ([], [])).1

/-! The Ingestion Controller: the pagination loop of `orchestrate_mapping`
(the loop in `get_scene_outline` is character-for-character the same). -/

/-- The reported `next_offset` of a successful page: either a value that
`int(...)` parses, or one it cannot parse. -/
inductive CursorVal where
  | intVal (n : Int)
  | malformed
deriving DecidableEq

/-- One page response of `get_scene_object_index`, at the interface the loop
consumes: `success`, `message`, `data.objects`, `data.next_offset` (`none`
models absent/null). -/
structure Page where
  success : Bool
  message : String
  objects : List Rec
  nextOffset : Option CursorVal
deriving DecidableEq

/-- The pagination loop: starting from the given offset and accumulator,
repeatedly fetch; a non-successful page aborts with that page as the overall
failure; absent or unparsable `next_offset` ends pagination normally with
everything accumulated (including the current page's records).  `fuel` bounds
the number of pages fetched (the source's loop runs one iteration per page);
the claims quantify over any positive remaining fuel. -/
def ingest (fetch : Int → Page) : Nat → Int → List Rec → Except Page (List Rec)
  | 0, _, acc => Except.ok acc
  | fuel + 1, offset, acc =>
    let page := fetch offset
    if page.success then
      let acc2 := acc ++ page.objects
      match page.nextOffset with
      | none => Except.ok acc2
      | some (CursorVal.intVal n) => ingest fetch fuel n acc2
      | some CursorVal.malformed => Except.ok acc2
    else
      Except.error page

/-! Concrete inputs used by the examples, counterexamples and witnesses. -/

/-- The round-trip record set of claim C7. -/
def objsRoundTrip : List Rec :=
  [mkRec "A" "a", mkRec "A/B" "ab", mkRec "A/B/C" "abc", mkRec "D" "d"]

/-- The orphan record set of claim C8. -/
def objsOrphan : List Rec :=
  [mkRec "X/Y" "xy"]

/-- Two root records in reverse path order (claim C4's counterexample). -/
def objsUnsorted : List Rec :=
  [mkRec "B" "b", mkRec "A" "a"]

/-- A record with a path but no identity (claim C2's counterexample). -/
def recNoGid : Rec :=
  mkRec "A" ""

/-- A record with an identity but no path (claims C3 and C10). -/
def recPathless : Rec :=
  ⟨"", "g1", "Enemy", some "5", "Prefabs/P.prefab", ["UnityEngine.Transform"]⟩

/-- A successful page whose reported cursor cannot be parsed as an integer
(claim C9's witness). -/
def pageMalformed : Page :=
  ⟨true, "", [mkRec "A" "a"], some CursorVal.malformed⟩

/-- The first relationship row derived from the round-trip record set. -/
def rowAB : HierarchyRow :=
  { subject := mkRec "A" "a", predicate := "part_of", object := mkRec "A/B" "ab",
    evidence := [], subsystem := "Scene", condition := "Cond" }

/-! Theorems. -/

/-- Boolean `contains` on lists agrees with membership (used to relate the
modelled dict-key lookups to propositional membership). -/
theorem contains_iff_mem {α : Type} [BEq α] [LawfulBEq α] {a : α} {l : List α} :
    l.contains a = true ↔ a ∈ l := by
  simp [List.contains, List.elem_iff]

/-- A path containing a separator is strictly longer than its computed parent
path (`rsplit` removes at least the final `/`), the measure justifying every
recursion over the materialized-path forest. -/
theorem parentPath_length_lt {p : String} (h : hasSlash p = true) :
    (parentPath p).length < p.length := by
  unfold hasSlash at h
  have hmem : '/' ∈ p.data.reverse := by
    rw [List.mem_reverse]
    exact contains_iff_mem.mp h
  have hne : p.data.reverse.dropWhile (fun c => c ≠ '/') ≠ [] := by
    intro hnil
    have := List.dropWhile_eq_nil_iff.mp hnil '/' hmem
    simp at this
  have hle : (p.data.reverse.dropWhile (fun c => c ≠ '/')).length ≤ p.data.length := by
    have := (List.dropWhile_sublist (l := p.data.reverse)
      (fun c => decide (c ≠ '/'))).length_le
    simpa using this
  have hpos : 0 < (p.data.reverse.dropWhile (fun c => c ≠ '/')).length :=
    List.length_pos.mpr hne
  show (parentPath p).data.length < p.data.length
  simp only [parentPath, List.length_reverse, List.length_drop]
  omega

/-- Rewriting the source's clamp `max(30, min(150, t))` into the spec's
`clamp(t, 30, 150) = min(max(t, 30), 150)` form. -/
theorem clampSwap (t : Nat) : max 30 (min 150 t) = min (max t 30) 150 := by
  omega

/-- Claim C1 (counterexample): the claim states `targetPerDiagram = 0` when
`totalCount = 0`, but `_suggest_diagram_counts(0)` computes
`max(30, min(150, 0)) = 30`, not `0`. -/
theorem C1_counterexample :
    ¬ ((suggestDiagramCounts 0).targetNodesPerDiagram = 0) := by
  decide

/-- Claim C1 (amended): for every total entity count, when `totalCount > 0`
the Diagram Planner returns `targetPerDiagram` equal to
`totalCount / diagramCount` clamped into `[30,150]`; when `totalCount = 0`
the clamp is applied to `0`, so it returns `30` (not `0`). -/
theorem C1_theorem (total : Nat) :
    (0 < total →
      (suggestDiagramCounts total).targetNodesPerDiagram =
        min (max (total / (suggestDiagramCounts total).diagramCount) 30) 150) ∧
    (total = 0 → (suggestDiagramCounts total).targetNodesPerDiagram = 30) := by
  constructor
  · intro ht
    have hne : total ≠ 0 := by omega
    simp only [suggestDiagramCounts, hne, ne_eq, not_false_eq_true, if_true]
    split
    · simp only [show (max 1 1 : Nat) = 1 from by decide]; exact clampSwap _
    · split
      · simp only [show (max 2 1 : Nat) = 2 from by decide]; exact clampSwap _
      · split
        · simp only [show (max 3 1 : Nat) = 3 from by decide]; exact clampSwap _
        · simp only [show (max 4 1 : Nat) = 4 from by decide]; exact clampSwap _
  · intro h0
    subst h0
    decide

/-- Witness for `C1_theorem` at `total = 90`: `90 / 2 = 45` lies inside the
clamp window, and the planner indeed returns `45`. -/
theorem C1_witness :
    (suggestDiagramCounts 90).targetNodesPerDiagram =
      min (max (90 / (suggestDiagramCounts 90).diagramCount) 30) 150 :=
  (C1_theorem 90).1 (by decide)

/-- Claim C5: the planner's threshold table, checked at the eight boundary
totals, and for every positive total the returned target lies in `[30,150]`. -/
theorem C5_theorem :
    ((suggestDiagramCounts 0).diagramCount = 1 ∧
     (suggestDiagramCounts 80).diagramCount = 1 ∧
     (suggestDiagramCounts 81).diagramCount = 2 ∧
     (suggestDiagramCounts 200).diagramCount = 2 ∧
     (suggestDiagramCounts 201).diagramCount = 3 ∧
     (suggestDiagramCounts 400).diagramCount = 3 ∧
     (suggestDiagramCounts 401).diagramCount = 4 ∧
     (suggestDiagramCounts 1000).diagramCount = 4) ∧
    ∀ total : Nat, 0 < total →
      30 ≤ (suggestDiagramCounts total).targetNodesPerDiagram ∧
      (suggestDiagramCounts total).targetNodesPerDiagram ≤ 150 := by
  refine ⟨by decide, ?_⟩
  intro total _
  simp only [suggestDiagramCounts]
  omega

/-- Witness for `C5_theorem` at `total = 1000`: the target `150` is inside
`[30,150]`. -/
theorem C5_witness :
    30 ≤ (suggestDiagramCounts 1000).targetNodesPerDiagram ∧
    (suggestDiagramCounts 1000).targetNodesPerDiagram ≤ 150 :=
  C5_theorem.2 1000 (by decide)

/-- Claim C9: during ingestion, a non-successful page aborts immediately with
that page's response as the overall failure; an absent `next_offset` ends
pagination normally; an unparsable `next_offset` also ends pagination
normally, returning everything accumulated so far including the current
page's records. -/
theorem C9_theorem (fetch : Int → Page) (fuel : Nat) (offset : Int) (acc : List Rec) :
    ((fetch offset).success = false →
      ingest fetch (fuel + 1) offset acc = Except.error (fetch offset)) ∧
    ((fetch offset).success = true → (fetch offset).nextOffset = none →
      ingest fetch (fuel + 1) offset acc = Except.ok (acc ++ (fetch offset).objects)) ∧
    ((fetch offset).success = true → (fetch offset).nextOffset = some CursorVal.malformed →
      ingest fetch (fuel + 1) offset acc = Except.ok (acc ++ (fetch offset).objects)) := by
  refine ⟨?_, ?_, ?_⟩
  · intro hs
    simp [ingest, hs]
  · intro hs hn
    simp [ingest, hs, hn]
  · intro hs hn
    simp [ingest, hs, hn]

/-- Witness for `C9_theorem`: one page with a malformed cursor ends
pagination normally with that page's records accumulated. -/
theorem C9_witness :
    ingest (fun _ => pageMalformed) 1 0 [] = Except.ok ([] ++ pageMalformed.objects) :=
  (C9_theorem (fun _ => pageMalformed) 0 0 []).2.2 rfl rfl

/-- An empty record path never satisfies a nonempty membership test string. -/
theorem strStartsWith_empty_string {pre : String} (hpre : pre.data ≠ []) :
    strStartsWith "" pre = false := by
  unfold strStartsWith
  have hpos : 0 < pre.data.length := List.length_pos.mpr hpre
  exact List.isPrefixOf_length_pos_nil hpos

/-- A diagram whose assigned root paths are all non-empty never matches the
empty record path: the empty path equals no non-empty root path and extends
none of them. -/
theorem matchesDiagram_empty_path {d : Diagram}
    (h : ∀ rp ∈ d.rootPaths, rp ≠ "") :
    matchesDiagram d "" = false := by
  unfold matchesDiagram
  rw [List.any_eq_false]
  intro rp hrp
  have hne := h rp hrp
  have h1 : (("" : String) == rp) = false := by
    rw [beq_eq_false_iff_ne]
    exact fun heq => hne heq.symm
  have h2 : strStartsWith "" (rp ++ "/") = false := by
    apply strStartsWith_empty_string
    rw [String.data_append]
    simp
  simp [h1, h2]

/-- The member-tagging step is the identity on a record with an empty path,
as long as every diagram's assigned root paths are non-empty. -/
theorem addMember_empty_path (ds : List Diagram) (gid : String)
    (h : ∀ d ∈ ds, ∀ rp ∈ d.rootPaths, rp ≠ "") :
    addMember ds "" gid = ds := by
  induction ds with
  | nil => rfl
  | cons d0 ds ih =>
    rw [addMember, matchesDiagram_empty_path (h d0 (by simp))]
    simp only [Bool.false_eq_true, if_false]
    rw [ih (fun d2 hd2 => h d2 (List.mem_cons_of_mem _ hd2))]

/-- Shape of one greedy `assignRoot` step: the head of the re-sorted diagram
list receives the root path and its size. -/
theorem assignRoot_eq (sizes : String → Nat) (ds : List Diagram) (p : String) :
    (List.insertionSort diagOrder ds = [] ∧ assignRoot sizes ds p = []) ∨
    ∃ d0 rest, List.insertionSort diagOrder ds = d0 :: rest ∧
      assignRoot sizes ds p =
        { d0 with rootPaths := d0.rootPaths ++ [p],
                  nodeCount := d0.nodeCount + sizes p } :: rest := by
  unfold assignRoot
  cases h : List.insertionSort diagOrder ds with
  | nil => exact Or.inl ⟨rfl, rfl⟩
  | cons d0 rest => exact Or.inr ⟨d0, rest, rfl, rfl⟩

/-- The greedy root-assignment step only adds non-empty root paths. -/
theorem assignRoot_rootPaths {sizes : String → Nat} {ds : List Diagram} {p : String}
    (hds : ∀ d ∈ ds, ∀ rp ∈ d.rootPaths, rp ≠ "") (hp : p ≠ "") :
    ∀ d ∈ assignRoot sizes ds p, ∀ rp ∈ d.rootPaths, rp ≠ "" := by
  have hperm := List.perm_insertionSort diagOrder ds
  rcases assignRoot_eq sizes ds p with ⟨_, heq⟩ | ⟨d0, rest, hsort, heq⟩
  · rw [heq]
    intro d hd
    simp at hd
  · rw [heq]
    intro d hd rp hrp
    rcases List.mem_cons.mp hd with rfl | hmem
    · simp only [List.mem_append, List.mem_singleton] at hrp
      rcases hrp with hrp | rfl
      · have hd0 : d0 ∈ ds := hperm.mem_iff.mp (by rw [hsort]; simp)
        exact hds d0 hd0 rp hrp
      · exact hp
    · have hd' : d ∈ ds := hperm.mem_iff.mp (by rw [hsort]; exact List.mem_cons_of_mem _ hmem)
      exact hds d hd' rp hrp

/-- The whole greedy root-assignment fold only produces non-empty root
paths. -/
theorem foldl_assignRoot_rootPaths {sizes : String → Nat} (ps : List String)
    (ds : List Diagram)
    (hps : ∀ p ∈ ps, p ≠ "") (hds : ∀ d ∈ ds, ∀ rp ∈ d.rootPaths, rp ≠ "") :
    ∀ d ∈ ps.foldl (assignRoot sizes) ds, ∀ rp ∈ d.rootPaths, rp ≠ "" := by
  induction ps generalizing ds with
  | nil => exact hds
  | cons p ps ih =>
    simp only [List.foldl_cons]
    exact ih _ (fun q hq => hps q (List.mem_cons_of_mem _ hq))
      (assignRoot_rootPaths hds (hps p (by simp)))

/-- The member-tagging step never changes any diagram's root paths. -/
theorem addMember_rootPaths (ds : List Diagram) (path gid : String) :
    ∀ d ∈ addMember ds path gid, ∃ d0 ∈ ds, d.rootPaths = d0.rootPaths := by
  induction ds with
  | nil =>
    intro d hd
    simp [addMember] at hd
  | cons d0 ds ih =>
    intro d hd
    rw [addMember] at hd
    by_cases hm : matchesDiagram d0 path = true
    · rw [hm] at hd
      simp only [if_true] at hd
      rcases List.mem_cons.mp hd with rfl | hmem
      · exact ⟨d0, by simp, rfl⟩
      · exact ⟨d, List.mem_cons_of_mem _ hmem, rfl⟩
    · rw [Bool.not_eq_true] at hm
      rw [hm] at hd
      simp only [Bool.false_eq_true, if_false] at hd
      rcases List.mem_cons.mp hd with rfl | hmem
      · exact ⟨d, by simp, rfl⟩
      · rcases ih d hmem with ⟨d1, hd1, he⟩
        exact ⟨d1, List.mem_cons_of_mem _ hd1, he⟩

/-- Records with an empty path are no-ops for the member-tagging fold, so the
fold only depends on the records with a non-empty path. -/
theorem foldl_addMember_filter (objs : List Rec) (ds : List Diagram)
    (hds : ∀ d ∈ ds, ∀ rp ∈ d.rootPaths, rp ≠ "") :
    objs.foldl (fun ds o => if o.gid = "" then ds else addMember ds o.path o.gid) ds =
      (objs.filter (fun o => o.path ≠ "")).foldl
        (fun ds o => if o.gid = "" then ds else addMember ds o.path o.gid) ds := by
  induction objs generalizing ds with
  | nil => rfl
  | cons o objs ih =>
    have hstep : ∀ ds2 : List Diagram, (∀ d ∈ ds2, ∀ rp ∈ d.rootPaths, rp ≠ "") →
        ∀ d ∈ (if o.gid = "" then ds2 else addMember ds2 o.path o.gid),
          ∀ rp ∈ d.rootPaths, rp ≠ "" := by
      intro ds2 hds2 d hd
      by_cases hg : o.gid = ""
      · rw [if_pos hg] at hd
        exact hds2 d hd
      · rw [if_neg hg] at hd
        rcases addMember_rootPaths ds2 o.path o.gid d hd with ⟨d1, hd1, he⟩
        rw [he]
        exact hds2 d1 hd1
    by_cases hp : o.path = ""
    · have hskip : (if o.gid = "" then ds else addMember ds o.path o.gid) = ds := by
        by_cases hg : o.gid = ""
        · rw [if_pos hg]
        · rw [if_neg hg, hp, addMember_empty_path ds o.gid hds]
      simp only [List.foldl_cons, hskip]
      have hfilt : (o :: objs).filter (fun o => o.path ≠ "") =
          objs.filter (fun o => o.path ≠ "") := by
        simp [List.filter_cons, hp]
      rw [hfilt]
      exact ih ds hds
    · have hfilt : (o :: objs).filter (fun o => o.path ≠ "") =
          o :: objs.filter (fun o => o.path ≠ "") := by
        simp [List.filter_cons, hp]
      rw [hfilt]
      simp only [List.foldl_cons]
      exact ih _ (hstep ds hds)

/-- Every path collected into `root_paths` by `_build_diagrams` is
non-empty. -/
theorem mem_rootPathsOf {roots : List Node} {p : String} (hp : p ∈ rootPathsOf roots) :
    p ≠ "" ∧ ∃ r ∈ roots, nodePath r = p := by
  unfold rootPathsOf at hp
  rcases List.mem_filterMap.mp hp with ⟨r, hr, hsome⟩
  by_cases h0 : nodePath r = ""
  · rw [if_pos h0] at hsome
    cases hsome
  · rw [if_neg h0] at hsome
    cases hsome
    exact ⟨h0, r, hr, rfl⟩

/-- Fresh diagrams carry no root paths, no members, and zero node count. -/
theorem mem_mkEmptyDiagrams {n : Nat} {d : Diagram} (hd : d ∈ mkEmptyDiagrams n) :
    d.rootPaths = [] ∧ d.objectIds = [] ∧ d.nodeCount = 0 := by
  unfold mkEmptyDiagrams at hd
  rcases List.mem_map.mp hd with ⟨i, _, rfl⟩
  exact ⟨rfl, rfl, rfl⟩

/-- Claim C10: a record whose identity is non-empty but whose path is empty
(or absent) appears in no diagram's member-identity list: `_build_diagrams`
produces exactly the same diagrams when every empty-path record is removed
from its input, because membership requires the record's path to equal an
assigned (necessarily non-empty) root path or to extend it with a separator,
which an empty path never satisfies. -/
theorem C10_theorem (objs : List Rec) (roots : List Node) (k : Nat) :
    buildDiagrams objs roots k =
      buildDiagrams (objs.filter (fun o => o.path ≠ "")) roots k := by
  unfold buildDiagrams
  by_cases hempty : (rootPathsOf roots).isEmpty
  · simp only [hempty, if_true]
  · simp only [hempty, Bool.false_eq_true, if_false]
    apply foldl_addMember_filter
    apply foldl_assignRoot_rootPaths
    · intro p hp
      have hp2 : p ∈ rootPathsOf roots :=
        (List.perm_insertionSort (rootOrder (rootSizesFun roots)) (rootPathsOf roots)).mem_iff.mp hp
      exact (mem_rootPathsOf hp2).1
    · intro d hd
      rw [(mem_mkEmptyDiagrams hd).1]
      intro rp hrp
      cases hrp

/-- The component-counting loop leaves keys it never sees unchanged. -/
theorem foldl_bump_not_mem (l : List String) (m : String → Nat) (c : String)
    (hc : c ∉ l) :
    (l.foldl (fun m2 x => if x = "" then m2 else bumpS m2 x) m) c = m c := by
  induction l generalizing m with
  | nil => rfl
  | cons x l ih =>
    simp only [List.foldl_cons]
    have hcx : c ≠ x := fun h => hc (h ▸ List.mem_cons_self x l)
    have hxc : (if x = "" then m else bumpS m x) c = m c := by
      by_cases hx : x = ""
      · rw [if_pos hx]
      · rw [if_neg hx]
        simp [bumpS, hcx]
    rw [ih _ (fun h => hc (List.mem_cons_of_mem _ h)), hxc]

/-- Effect at a contained key of the per-record component-counting loop
(`for comp in normalized: ... component_counts[comp] += 1`). -/
theorem foldl_bump_mem (l : List String) (m : String → Nat) (c : String)
    (hnd : l.Nodup) (hc : c ∈ l) (hcne : c ≠ "") :
    (l.foldl (fun m2 x => if x = "" then m2 else bumpS m2 x) m) c = m c + 1 := by
  induction l generalizing m with
  | nil => cases hc
  | cons x l ih =>
    simp only [List.foldl_cons]
    rcases List.mem_cons.mp hc with rfl | hmem
    · have hnotmem : c ∉ l := (List.nodup_cons.mp hnd).1
      rw [foldl_bump_not_mem l _ c hnotmem]
      rw [if_neg hcne]
      simp [bumpS]
    · have hxc : (if x = "" then m else bumpS m x) c = m c := by
        by_cases hx : x = ""
        · rw [if_pos hx]
        · rw [if_neg hx]
          have : c ≠ x := fun h => ((List.nodup_cons.mp hnd).1 (h ▸ hmem)).elim
          simp [bumpS, this]
      rw [ih _ (List.nodup_cons.mp hnd).2 hmem, hxc]

/-- Claim C3 (counterexample): a record lacking a path IS counted in the
depth histogram — `_build_grouping_lenses` computes
`(obj.get("hierarchyPath") or "").count("/") = 0` for it and increments the
depth-`0` bucket, so on the single pathless record the depth histogram is not
empty as the claim would require. -/
theorem C3_counterexample :
    recPathless.path = "" ∧ depthCounts [recPathless] 0 = 1 := by
  constructor
  · rfl
  · rfl

/-- Claim C3 (amended): a record lacking a path is counted in the tag, layer,
prefab (when a prefab origin is present) and component histograms, and it is
ALSO counted in the depth histogram, in the depth-`0` bucket (its absent path
is read as the empty string, which contains no separator). -/
theorem C3_theorem (objs : List Rec) (r : Rec) (d : Nat) (hpath : r.path = "") :
    tagCounts (objs ++ [r]) (effectiveTag r) = tagCounts objs (effectiveTag r) + 1 ∧
    layerCounts (objs ++ [r]) (layerKey r) = layerCounts objs (layerKey r) + 1 ∧
    (r.prefabPath ≠ "" →
      prefabCounts (objs ++ [r]) r.prefabPath = prefabCounts objs r.prefabPath + 1) ∧
    (∀ c ∈ normalizedComponents r, c ≠ "" →
      componentCounts (objs ++ [r]) c = componentCounts objs c + 1) ∧
    depthCounts (objs ++ [r]) d = depthCounts objs d + (if d = 0 then 1 else 0) := by
  refine ⟨?_, ?_, ?_, ?_, ?_⟩
  · rw [tagCounts, List.foldl_append]
    simp [bumpS, tagCounts]
  · rw [layerCounts, List.foldl_append]
    simp [bumpS, layerCounts]
  · intro hpre
    rw [prefabCounts, List.foldl_append]
    simp only [List.foldl_cons, List.foldl_nil, if_neg hpre]
    simp [bumpS, prefabCounts]
  · intro c hc hcne
    rw [componentCounts, List.foldl_append]
    simp only [List.foldl_cons, List.foldl_nil]
    have hnd : (normalizedComponents r).Nodup := List.nodup_dedup _
    rw [foldl_bump_mem _ _ _ hnd hc hcne]
    rfl
  · rw [depthCounts, List.foldl_append]
    simp only [List.foldl_cons, List.foldl_nil]
    have hdep : depthOf r = 0 := by
      rw [depthOf, hpath]
      rfl
    rw [hdep, bumpN, depthCounts]
    by_cases hd : d = 0
    · simp [hd]
    · simp [hd]

/-- Witness for `C3_theorem`: the pathless record bumps the depth-`0` bucket
of the depth histogram. -/
theorem C3_witness :
    depthCounts ([] ++ [recPathless]) 0 = depthCounts [] 0 + (if 0 = 0 then 1 else 0) :=
  (C3_theorem [] recPathless 0 rfl).2.2.2.2

/-- Unfolding equation of `sortNodeO` with the `attach` scaffolding removed. -/
theorem sortNodeO_mk (e : Rec) (cs : List Node) :
    sortNodeO (Node.mk e cs) = Node.mk e ((sortByPath cs).map sortNodeO) := by
  rw [sortNodeO]
  congr 1
  rw [List.attach_map_coe]

/-- Unfolding equation of `sortNodeS` with the `attach` scaffolding removed. -/
theorem sortNodeS_mk (e : Rec) (cs : List Node) :
    sortNodeS (Node.mk e cs) = Node.mk e ((sortByPath cs).map sortNodeS) := by
  rw [sortNodeS]
  congr 1
  rw [List.attach_map_coe]

/-- Both sorters act identically on any node they recurse into: each sorts
the node's children and recurses.  (They differ only at the top level.) -/
theorem sortNode_eq : ∀ n, sortNodeO n = sortNodeS n :=
  nodeInduction (fun e cs ih => by
    rw [sortNodeO_mk, sortNodeS_mk]
    congr 1
    exact List.map_congr_left (fun c hc => ih c (by simpa [sortByPath] using hc)))

/-- Sorting a node keeps its path. -/
theorem nodePath_sortNodeO (n : Node) : nodePath (sortNodeO n) = nodePath n := by
  cases n with
  | mk e cs =>
    rw [sortNodeO_mk]
    rfl

/-- Sorting a node keeps its path. -/
theorem nodePath_sortNodeS (n : Node) : nodePath (sortNodeS n) = nodePath n := by
  cases n with
  | mk e cs =>
    rw [sortNodeS_mk]
    rfl

/-- The children of an orchestrate-sorted node are its recursively sorted
children. -/
theorem children_sortNodeO (n : Node) :
    (sortNodeO n).children = sortTreeO n.children := by
  cases n with
  | mk e cs =>
    rw [sortNodeO_mk]
    rfl

/-- One sorting pass produces an ascending sibling list. -/
theorem sorted_sortByPath (ns : List Node) : List.Sorted pathLe (sortByPath ns) :=
  List.sorted_insertionSort pathLe ns

/-- The top level of the orchestrate sorter's output is in ascending path
order. -/
theorem sortedTop_sortTreeO (ns : List Node) : List.Sorted pathLe (sortTreeO ns) := by
  unfold sortTreeO
  rw [List.Sorted, List.pairwise_map]
  apply List.Pairwise.imp ?_ (sorted_sortByPath ns)
  intro a b hab
  show nodePath (sortNodeO a) ≤ nodePath (sortNodeO b)
  rw [nodePath_sortNodeO, nodePath_sortNodeO]
  exact hab

/-- The orchestrate sorter sorts every level of the forest, the top level
included. -/
theorem allLevelsSorted_sortTreeO (ns : List Node) : AllLevelsSorted (sortTreeO ns) := by
  rw [AllLevelsSorted]
  refine ⟨sortedTop_sortTreeO ns, ?_⟩
  intro n hn
  rcases List.mem_map.mp hn with ⟨n0, hn0, rfl⟩
  rw [children_sortNodeO]
  have hn0mem : n0 ∈ ns := by simpa [sortByPath] using hn0
  exact allLevelsSorted_sortTreeO n0.children
termination_by sizeOf ns
decreasing_by
  have h1 := List.sizeOf_lt_of_mem hn0mem
  cases n0 with
  | mk e cs =>
    simp only [Node.children, Node.mk.sizeOf_spec] at *
    omega

/-- The scene-outline sorter never reorders the top-level path sequence. -/
theorem mapPath_sortTreeS (ns : List Node) :
    (sortTreeS ns).map nodePath = ns.map nodePath := by
  unfold sortTreeS
  rw [List.map_map]
  exact List.map_congr_left (fun n _ => nodePath_sortNodeS n)

/-- Claim C4 (counterexample): on the forest the Tree Builder produces from
records with paths `B`, `A` (in that insertion order), the two sorter
implementations disagree — `orchestrate_mapping._sort_tree` reorders the two
roots into ascending path order while `scene_outline._sort_tree` leaves the
top level untouched. -/
theorem C4_counterexample :
    sortTreeO (buildTree objsUnsorted).1 ≠ sortTreeS (buildTree objsUnsorted).1 := by
  intro h
  have hmap := congrArg (List.map nodePath) h
  rw [mapPath_sortTreeS] at hmap
  have hsorted : List.Sorted (fun a b : String => a ≤ b)
      ((sortTreeO (buildTree objsUnsorted).1).map nodePath) := by
    rw [List.Sorted, List.pairwise_map]
    exact sortedTop_sortTreeO _
  rw [hmap] at hsorted
  have hBA : (buildTree objsUnsorted).1.map nodePath = ["B", "A"] := by rfl
  rw [hBA] at hsorted
  have hle : ("B" : String) ≤ "A" :=
    (List.sorted_cons.mp hsorted).1 "A" (by simp)
  rw [String.le_iff_toList_le] at hle
  exact absurd hle (by decide)

/-- Claim C4 (amended): both Tree Sorter implementations recursively order
every children list by ascending case-sensitive path, but only the
`orchestrate_mapping` version also sorts the top-level sequence of roots;
the `scene_outline` version leaves the top-level order unchanged.  Hence the
orchestrate result equals the scene-outline result applied to the
top-level-sorted forest, the scene-outline sorter preserves the top-level
path sequence, and the orchestrate output is sorted at every level. -/
theorem C4_theorem (ns : List Node) :
    sortTreeO ns = sortTreeS (sortByPath ns) ∧
    (sortTreeS ns).map nodePath = ns.map nodePath ∧
    AllLevelsSorted (sortTreeO ns) := by
  refine ⟨?_, mapPath_sortTreeS ns, allLevelsSorted_sortTreeO ns⟩
  unfold sortTreeO sortTreeS
  exact List.map_congr_left (fun c _ => sortNode_eq c)

/-- Sums of pointwise sums of two maps split. -/
theorem sum_map_add {α : Type} (l : List α) (f g : α → Nat) :
    (l.map (fun x => f x + g x)).sum = (l.map f).sum + (l.map g).sum := by
  induction l with
  | nil => rfl
  | cons x l ih =>
    simp only [List.map_cons, List.sum_cons, ih]
    omega

/-- A filtered length is the sum of indicator contributions. -/
theorem length_filter_eq_sum {α : Type} (l : List α) (p : α → Bool) :
    (l.filter p).length = (l.map (fun x => if p x then 1 else 0)).sum := by
  induction l with
  | nil => rfl
  | cons x l ih =>
    by_cases hx : p x
    · simp [List.filter_cons, hx, ih]
      omega
    · simp [List.filter_cons, hx, ih]

/-- Double-counting: summing filtered lengths over `R` equals summing them
over `L` with the roles of the two index lists exchanged. -/
theorem sum_filter_swap {α β : Type} (R : List α) (L : List β) (P : α → β → Bool) :
    (R.map (fun p => (L.filter (fun q => P p q)).length)).sum =
      (L.map (fun q => (R.filter (fun p => P p q)).length)).sum := by
  induction R with
  | nil =>
    simp
  | cons p R ih =>
    simp only [List.map_cons, List.sum_cons, ih]
    have hswap : (L.map (fun q => ((p :: R).filter (fun p2 => P p2 q)).length)).sum =
        (L.map (fun q => (if P p q then 1 else 0) + (R.filter (fun p2 => P p2 q)).length)).sum := by
      congr 1
      apply List.map_congr_left
      intro q _
      by_cases hpq : P p q
      · simp [List.filter_cons, hpq]
        omega
      · simp [List.filter_cons, hpq]
    rw [hswap, sum_map_add, ← length_filter_eq_sum]

/-- A duplicate-free list containing exactly one element satisfying `Q` has a
filtered length of one. -/
theorem filter_length_one {α : Type} {l : List α} {Q : α → Bool} {e : α}
    (hnd : l.Nodup) (he : e ∈ l) (hQ : Q e = true)
    (huniq : ∀ x ∈ l, Q x = true → x = e) :
    (l.filter Q).length = 1 := by
  induction l with
  | nil => cases he
  | cons x l ih =>
    rcases List.mem_cons.mp he with rfl | hmem
    · have hnone : ∀ y ∈ l, Q y = false := by
        intro y hy
        by_cases hqy : Q y = true
        · exact absurd (huniq y (List.mem_cons_of_mem _ hy) hqy)
            (fun h => (List.nodup_cons.mp hnd).1 (h ▸ hy))
        · simpa using hqy
      have hfl : l.filter Q = [] := by
        rw [List.filter_eq_nil_iff]
        intro y hy
        simp [hnone y hy]
      simp [List.filter_cons, hQ, hfl]
    · have hx : Q x = false := by
        by_cases hqx : Q x = true
        · have := huniq x (List.mem_cons_self x l) hqx
          exact absurd (this ▸ hmem) (List.nodup_cons.mp hnd).1
        · simpa using hqx
      simp only [List.filter_cons, hx, Bool.false_eq_true, if_false]
      exact ih (List.nodup_cons.mp hnd).2 hmem
        (fun y hy hqy => huniq y (List.mem_cons_of_mem _ hy) hqy)

/-- Filtering with a weaker predicate keeps at least as many elements. -/
theorem length_filter_le_of_imp {α : Type} (l : List α) {P Q : α → Bool}
    (himp : ∀ x, Q x = true → P x = true) :
    (l.filter Q).length ≤ (l.filter P).length := by
  induction l with
  | nil => exact Nat.le_refl 0
  | cons x l ih =>
    by_cases hq : Q x = true
    · simp only [List.filter_cons, hq, himp x hq, if_true, List.length_cons]
      omega
    · have hq2 : Q x = false := by simpa using hq
      simp only [List.filter_cons, hq2, Bool.false_eq_true, if_false]
      by_cases hp : P x = true
      · simp only [hp, if_true, List.length_cons]
        omega
      · have hp2 : P x = false := by simpa using hp
        simp only [hp2, Bool.false_eq_true, if_false]
        exact ih

/-- Strict filtered-length comparison: some element satisfies the weaker
predicate but not the stronger one, and the stronger implies the weaker. -/
theorem length_filter_lt {α : Type} {l : List α} {P Q : α → Bool} {e : α}
    (he : e ∈ l) (hP : P e = true) (hQ : Q e = false)
    (himp : ∀ x, Q x = true → P x = true) :
    (l.filter Q).length < (l.filter P).length := by
  induction l with
  | nil => cases he
  | cons x l ih =>
    rcases List.mem_cons.mp he with rfl | hmem
    · simp only [List.filter_cons, hP, hQ, Bool.false_eq_true, if_false, if_true,
        List.length_cons]
      exact Nat.lt_succ_of_le (length_filter_le_of_imp l himp)
    · have hlt := ih hmem
      by_cases hq : Q x = true
      · simp only [List.filter_cons, hq, himp x hq, if_true, List.length_cons]
        omega
      · have hq2 : Q x = false := by simpa using hq
        simp only [List.filter_cons, hq2, Bool.false_eq_true, if_false]
        by_cases hp : P x = true
        · simp only [hp, if_true, List.length_cons]
          omega
        · have hp2 : P x = false := by simpa using hp
          simp only [hp2, Bool.false_eq_true, if_false]
          exact hlt

/-- Membership in the child-key list of `p`. -/
theorem mem_childKeys {K : List String} {p q : String} :
    q ∈ childKeys K p ↔ q ∈ K ∧ hasSlash q = true ∧ parentPath q = p := by
  unfold childKeys
  rw [List.mem_filter]
  constructor
  · rintro ⟨hq, hcond⟩
    rw [Bool.and_eq_true] at hcond
    exact ⟨hq, hcond.1, by simpa using hcond.2⟩
  · rintro ⟨hq, hs, hp⟩
    refine ⟨hq, ?_⟩
    rw [Bool.and_eq_true]
    exact ⟨hs, by simpa using hp⟩

/-- A child key is strictly longer than its parent key, so strictly fewer
keys are longer than it: the decreasing measure of the subtree recursion. -/
theorem childKeys_measure {K : List String} {p q : String} (hq : q ∈ childKeys K p) :
    keysLonger K q < keysLonger K p := by
  rcases mem_childKeys.mp hq with ⟨hqK, hs, hpq⟩
  have hlen : p.length < q.length := by
    have h := parentPath_length_lt hs
    rw [hpq] at h
    exact h
  unfold keysLonger
  apply length_filter_lt (e := q) hqK (by simpa using hlen) (by simp)
  intro x hx
  simp only [decide_eq_true_eq] at hx ⊢
  omega

/-- The subtree-size recursion is insensitive to any sufficiently large
fuel. -/
theorem sizeF_stable (K : List String) :
    ∀ n p fuel, keysLonger K p = n → n ≤ fuel →
      sizeF K (fuel + 1) p = sizeF K (n + 1) p := by
  intro n
  induction n using Nat.strong_induction_on with
  | _ n ih =>
    intro p fuel hn hle
    rw [sizeF, sizeF]
    congr 1
    congr 1
    apply List.map_congr_left
    intro q hq
    have hm : keysLonger K q < n := hn ▸ childKeys_measure hq
    obtain ⟨f2, rfl⟩ : ∃ f2, fuel = f2 + 1 := ⟨fuel - 1, by omega⟩
    obtain ⟨n2, rfl⟩ : ∃ n2, n = n2 + 1 := ⟨n - 1, by omega⟩
    rw [ih (keysLonger K q) (by omega) q f2 rfl (by omega),
      ih (keysLonger K q) (by omega) q n2 rfl (by omega)]

/-- The canonical subtree size obeys the `_count_subtree` recurrence. -/
theorem subtreeKeyCount_rec (K : List String) (p : String) :
    subtreeKeyCount K p = 1 + ((childKeys K p).map (subtreeKeyCount K)).sum := by
  unfold subtreeKeyCount
  rw [sizeF]
  congr 1
  congr 1
  apply List.map_congr_left
  intro q hq
  have hq1 : keysLonger K q < keysLonger K p := childKeys_measure hq
  have hq2 : keysLonger K p ≤ K.length := by
    unfold keysLonger
    exact (List.filter_sublist K).length_le
  obtain ⟨f2, hf2⟩ : ∃ f2, K.length = f2 + 1 := ⟨K.length - 1, by omega⟩
  rw [hf2]
  rw [sizeF_stable K (keysLonger K q) q f2 rfl (by omega),
    sizeF_stable K (keysLonger K q) q (f2 + 1) rfl (by omega)]

/-- An in-dict parent key is strictly shorter than its child key, so strictly
fewer keys are shorter than it: the decreasing measure of the ancestor-chain
recursion. -/
theorem parent_measure {K : List String} {q : String} (hs : hasSlash q = true)
    (hp : parentPath q ∈ K) :
    keysShorter K (parentPath q) < keysShorter K q := by
  have hlen := parentPath_length_lt hs
  unfold keysShorter
  apply length_filter_lt (e := parentPath q) hp (by simpa using hlen) (by simp)
  intro x hx
  simp only [decide_eq_true_eq] at hx ⊢
  omega

/-- A key with an in-dict parent has at least one shorter key. -/
theorem keysShorter_pos {K : List String} {q : String} (hs : hasSlash q = true)
    (hp : parentPath q ∈ K) :
    0 < keysShorter K q := by
  have h := parent_measure hs hp
  omega

/-- Every ancestor chain starts at its own key. -/
theorem head_mem_chainF (K : List String) (fuel : Nat) (q : String) :
    q ∈ chainF K fuel q := by
  cases fuel with
  | zero => simp [chainF]
  | succ f =>
    rw [chainF]
    split
    · exact List.mem_cons_self _ _
    · simp

/-- Membership in one unfolding of the ancestor chain. -/
theorem mem_chainF_succ {K : List String} {fuel : Nat} {q x : String} :
    x ∈ chainF K (fuel + 1) q ↔
      x = q ∨ ((hasSlash q && K.contains (parentPath q)) = true ∧
        x ∈ chainF K fuel (parentPath q)) := by
  rw [chainF]
  split
  · next h =>
    simp only [List.mem_cons]
    constructor
    · rintro (rfl | hx)
      · exact Or.inl rfl
      · exact Or.inr ⟨h, hx⟩
    · rintro (rfl | ⟨_, hx⟩)
      · exact Or.inl rfl
      · exact Or.inr hx
  · next h =>
    simp only [List.mem_singleton]
    constructor
    · exact Or.inl
    · rintro (rfl | ⟨hcl, _⟩)
      · rfl
      · exact absurd hcl h

/-- Ancestor chains of dict keys stay inside the dict. -/
theorem chainF_mem_K {K : List String} :
    ∀ fuel q x, q ∈ K → x ∈ chainF K fuel q → x ∈ K := by
  intro fuel
  induction fuel with
  | zero =>
    intro q x hq hx
    simp [chainF] at hx
    exact hx ▸ hq
  | succ f ih =>
    intro q x hq hx
    rcases mem_chainF_succ.mp hx with rfl | ⟨hcl, hx2⟩
    · exact hq
    · rw [Bool.and_eq_true] at hcl
      exact ih (parentPath q) x (contains_iff_mem.mp hcl.2) hx2

/-- Ancestor-chain elements below the head are strictly shorter. -/
theorem chainF_length {K : List String} :
    ∀ fuel q x, x ∈ chainF K fuel q → x = q ∨ x.length < q.length := by
  intro fuel
  induction fuel with
  | zero =>
    intro q x hx
    simp [chainF] at hx
    exact Or.inl hx
  | succ f ih =>
    intro q x hx
    rcases mem_chainF_succ.mp hx with rfl | ⟨hcl, hx2⟩
    · exact Or.inl rfl
    · rw [Bool.and_eq_true] at hcl
      have hplen := parentPath_length_lt hcl.1
      rcases ih (parentPath q) x hx2 with rfl | hlt
      · exact Or.inr hplen
      · exact Or.inr (Nat.lt_trans hlt hplen)

/-- Ancestor-chain membership is monotone in the fuel. -/
theorem chainF_mono {K : List String} :
    ∀ fuel q x, x ∈ chainF K fuel q → x ∈ chainF K (fuel + 1) q := by
  intro fuel
  induction fuel with
  | zero =>
    intro q x hx
    simp [chainF] at hx
    exact hx ▸ head_mem_chainF K 1 q
  | succ f ih =>
    intro q x hx
    rcases mem_chainF_succ.mp hx with rfl | ⟨hcl, hx2⟩
    · exact head_mem_chainF K (f + 2) _
    · exact mem_chainF_succ.mpr (Or.inr ⟨hcl, ih (parentPath q) x hx2⟩)

/-- With sufficient fuel, a chain containing a climbable key also contains
that key's parent (chains never stop early). -/
theorem chainF_continue {K : List String} :
    ∀ fuel q x, keysShorter K q ≤ fuel → x ∈ chainF K fuel q →
      hasSlash x = true → K.contains (parentPath x) = true →
      parentPath x ∈ chainF K fuel q := by
  intro fuel
  induction fuel with
  | zero =>
    intro q x hfuel hx hs hc
    simp [chainF] at hx
    subst hx
    have := keysShorter_pos hs (contains_iff_mem.mp hc)
    omega
  | succ f ih =>
    intro q x hfuel hx hs hc
    rcases mem_chainF_succ.mp hx with rfl | ⟨hcl, hx2⟩
    · have hcl : (hasSlash x && K.contains (parentPath x)) = true := by
        rw [Bool.and_eq_true]
        exact ⟨hs, hc⟩
      exact mem_chainF_succ.mpr (Or.inr ⟨hcl, head_mem_chainF K f (parentPath x)⟩)
    · rw [Bool.and_eq_true] at hcl
      have hmeas := parent_measure hcl.1 (contains_iff_mem.mp hcl.2)
      have hrec := ih (parentPath q) x (by omega) hx2 hs hc
      exact mem_chainF_succ.mpr
        (Or.inr ⟨by rw [Bool.and_eq_true]; exact hcl, hrec⟩)

/-- With sufficient fuel, every chain of a dict key reaches a root key. -/
theorem chainF_root {K : List String} :
    ∀ fuel q, q ∈ K → keysShorter K q ≤ fuel →
      ∃ r ∈ chainF K fuel q, isRootKey K r = true := by
  intro fuel
  induction fuel with
  | zero =>
    intro q hq hfuel
    refine ⟨q, head_mem_chainF K 0 q, ?_⟩
    unfold isRootKey
    cases ha : hasSlash q with
    | false => rfl
    | true =>
      cases hb : K.contains (parentPath q) with
      | false => rfl
      | true =>
        have := keysShorter_pos ha (contains_iff_mem.mp hb)
        omega
  | succ f ih =>
    intro q hq hfuel
    by_cases hcl : (hasSlash q && K.contains (parentPath q)) = true
    · rw [Bool.and_eq_true] at hcl
      have hmeas := parent_measure hcl.1 (contains_iff_mem.mp hcl.2)
      rcases ih (parentPath q) (contains_iff_mem.mp hcl.2) (by omega) with ⟨r, hr, hroot⟩
      refine ⟨r, ?_, hroot⟩
      exact mem_chainF_succ.mpr (Or.inr ⟨by rw [Bool.and_eq_true]; exact hcl, hr⟩)
    · refine ⟨q, head_mem_chainF K (f + 1) q, ?_⟩
      unfold isRootKey
      cases ha : hasSlash q with
      | false => rfl
      | true =>
        cases hb : K.contains (parentPath q) with
        | false => rfl
        | true => exact absurd (by rw [Bool.and_eq_true]; exact ⟨ha, hb⟩) hcl

/-- Two members of one ancestor chain are chain-comparable. -/
theorem chainF_linear {K : List String} :
    ∀ fuel q x y, x ∈ chainF K fuel q → y ∈ chainF K fuel q →
      x ∈ chainF K fuel y ∨ y ∈ chainF K fuel x := by
  intro fuel
  induction fuel with
  | zero =>
    intro q x y hx hy
    simp [chainF] at hx hy
    subst hx
    subst hy
    exact Or.inl (head_mem_chainF K 0 _)
  | succ f ih =>
    intro q x y hx hy
    rcases mem_chainF_succ.mp hx with rfl | ⟨hclx, hx2⟩
    · exact Or.inr hy
    · rcases mem_chainF_succ.mp hy with rfl | ⟨hcly, hy2⟩
      · exact Or.inl hx
      · rcases ih (parentPath q) x y hx2 hy2 with h | h
        · exact Or.inl (chainF_mono f y x h)
        · exact Or.inr (chainF_mono f x y h)

/-- Below a chain's starting key, the chain enters the subtree through some
child of any strictly-lower chain element `p`. -/
theorem chain_child_exists {K : List String} :
    ∀ fuel q p, q ∈ K → p ∈ chainF K fuel q → p ≠ q →
      ∃ c, c ∈ childKeys K p ∧ c ∈ chainF K fuel q := by
  intro fuel
  induction fuel with
  | zero =>
    intro q p hq hp hne
    simp [chainF] at hp
    exact absurd hp hne
  | succ f ih =>
    intro q p hq hp hne
    rcases mem_chainF_succ.mp hp with rfl | ⟨hcl, hp2⟩
    · exact absurd rfl hne
    · rw [Bool.and_eq_true] at hcl
      by_cases hpq : parentPath q = p
      · exact ⟨q, mem_childKeys.mpr ⟨hq, hcl.1, hpq⟩, head_mem_chainF K (f + 1) q⟩
      · have hqp : p ≠ parentPath q := fun h => hpq h.symm
        rcases ih (parentPath q) p (contains_iff_mem.mp hcl.2) hp2 hqp with ⟨c, hc1, hc2⟩
        refine ⟨c, hc1, ?_⟩
        exact mem_chainF_succ.mpr (Or.inr ⟨by rw [Bool.and_eq_true]; exact hcl, hc2⟩)

/-- Two children of the same key cannot be chain-comparable unless equal. -/
theorem chain_child_step {K : List String} {p c1 c2 : String} (hp : p ∈ K)
    (hc1 : c1 ∈ childKeys K p) (hc2 : c2 ∈ childKeys K p)
    (h : c2 ∈ chainF K (K.length + 1) c1) : c1 = c2 := by
  rcases mem_childKeys.mp hc1 with ⟨hc1K, hs1, hpp1⟩
  rcases mem_childKeys.mp hc2 with ⟨hc2K, hs2, hpp2⟩
  rcases mem_chainF_succ.mp h with rfl | ⟨_, h2⟩
  · rfl
  · rw [hpp1] at h2
    exfalso
    rcases chainF_length K.length p c2 h2 with rfl | hlt
    · have hgt := parentPath_length_lt hs2
      rw [hpp2] at hgt
      omega
    · have hgt := parentPath_length_lt hs2
      rw [hpp2] at hgt
      omega

/-- At most one child of `p` lies on any given ancestor chain. -/
theorem chain_child_unique {K : List String} {p q c1 c2 : String} (hp : p ∈ K)
    (hc1 : c1 ∈ childKeys K p) (hc2 : c2 ∈ childKeys K p)
    (hm1 : c1 ∈ keyChain K q) (hm2 : c2 ∈ keyChain K q) : c1 = c2 := by
  unfold keyChain at hm1 hm2
  rcases chainF_linear (K.length + 1) q c1 c2 hm1 hm2 with h | h
  · exact (chain_child_step hp hc2 hc1 h).symm
  · exact chain_child_step hp hc1 hc2 h

/-- The chain of a root key is the singleton of that key. -/
theorem chainF_of_root {K : List String} {x y : String}
    (hroot : isRootKey K x = true) :
    ∀ fuel, y ∈ chainF K fuel x → y = x := by
  intro fuel hy
  cases fuel with
  | zero => simpa [chainF] using hy
  | succ f =>
    rcases mem_chainF_succ.mp hy with rfl | ⟨hcl, _⟩
    · rfl
    · rw [Bool.and_eq_true] at hcl
      unfold isRootKey at hroot
      rw [hcl.1, hcl.2] at hroot
      simp at hroot

/-- A sum of ones counts the list. -/
theorem sum_map_one {α : Type} (l : List α) :
    (l.map (fun _ => (1 : Nat))).sum = l.length := by
  induction l with
  | nil => rfl
  | cons x l ih =>
    simp [ih]
    omega

/-- Every chain fits in the canonical fuel. -/
theorem keysShorter_le (K : List String) (q : String) :
    keysShorter K q ≤ K.length + 1 := by
  unfold keysShorter
  have h : (K.filter (fun k => decide (k.length < q.length))).length ≤ K.length :=
    (List.filter_sublist K).length_le
  omega

/-- The subtree-membership count obeys the `_count_subtree` recurrence: a
key's fiber consists of the key itself plus the fibers of its children. -/
theorem fiberCount_rec {K : List String} (hnd : K.Nodup) {p : String} (hp : p ∈ K) :
    fiberCount K p = 1 + ((childKeys K p).map (fiberCount K)).sum := by
  have hpoint : ∀ q ∈ K,
      (if (keyChain K q).contains p = true then 1 else 0) =
        ((if (q == p) = true then 1 else 0) +
          ((childKeys K p).filter (fun c => (keyChain K q).contains c)).length) := by
    intro q hqK
    by_cases hqp : q = p
    · subst hqp
      have hhead : (keyChain K q).contains q = true :=
        contains_iff_mem.mpr (head_mem_chainF K (K.length + 1) q)
      rw [hhead]
      have hnil : (childKeys K q).filter (fun c => (keyChain K q).contains c) = [] := by
        rw [List.filter_eq_nil_iff]
        intro c hc hcontains
        have hmem : c ∈ keyChain K q := contains_iff_mem.mp hcontains
        rcases mem_childKeys.mp hc with ⟨_, hs, hpp⟩
        have hgt := parentPath_length_lt hs
        rw [hpp] at hgt
        rcases chainF_length (K.length + 1) q c hmem with rfl | hlt
        · omega
        · omega
      rw [hnil]
      simp
    · have hbeq : (q == p) = false := by simp [hqp]
      rw [hbeq]
      by_cases hcont : (keyChain K q).contains p = true
      · rw [hcont]
        have hpmem : p ∈ keyChain K q := contains_iff_mem.mp hcont
        have hpne : p ≠ q := fun h => hqp h.symm
        rcases chain_child_exists (K.length + 1) q p hqK hpmem hpne with ⟨c, hcchild, hcchain⟩
        have h1 : ((childKeys K p).filter (fun c => (keyChain K q).contains c)).length = 1 := by
          apply filter_length_one (hnd.filter _) hcchild (contains_iff_mem.mpr hcchain)
          intro x hx hqx
          exact chain_child_unique hp hx hcchild (contains_iff_mem.mp hqx) hcchain
        rw [h1]
        simp
      · have hcont2 : (keyChain K q).contains p = false := by simpa using hcont
        rw [hcont2]
        have hnil : (childKeys K p).filter (fun c => (keyChain K q).contains c) = [] := by
          rw [List.filter_eq_nil_iff]
          intro c hc hcontains
          rcases mem_childKeys.mp hc with ⟨hcK, hs, hpp⟩
          have hpar : parentPath c ∈ keyChain K q := by
            unfold keyChain
            apply chainF_continue (K.length + 1) q c (keysShorter_le K q)
              (contains_iff_mem.mp hcontains) hs
            exact contains_iff_mem.mpr (hpp ▸ hp)
          rw [hpp] at hpar
          exact absurd (contains_iff_mem.mpr hpar) (by simpa using hcont)
        rw [hnil]
        simp
  unfold fiberCount
  rw [length_filter_eq_sum, List.map_congr_left hpoint, sum_map_add,
    ← length_filter_eq_sum]
  have hone : (K.filter (fun q => q == p)).length = 1 := by
    apply filter_length_one hnd hp (by simp)
    intro x _ hqx
    simpa using hqx
  rw [hone]
  rw [← sum_filter_swap (childKeys K p) K (fun c q => (keyChain K q).contains c)]

/-- The canonical subtree size of a key equals the number of keys whose chain
passes through it. -/
theorem subtreeKeyCount_eq_fiberCount {K : List String} (hnd : K.Nodup) :
    ∀ n p, keysLonger K p = n → p ∈ K → subtreeKeyCount K p = fiberCount K p := by
  intro n
  induction n using Nat.strong_induction_on with
  | _ n ih =>
    intro p hn hp
    rw [subtreeKeyCount_rec, fiberCount_rec hnd hp]
    congr 1
    congr 1
    apply List.map_congr_left
    intro c hc
    exact ih (keysLonger K c) (hn ▸ childKeys_measure hc) c rfl (mem_childKeys.mp hc).1

/-- Every key's chain contains exactly one root key, so summing fibers over
the root keys counts every key exactly once. -/
theorem sum_fiberCount_roots {K : List String} (hnd : K.Nodup) :
    ((rootKeys K).map (fiberCount K)).sum = K.length := by
  unfold fiberCount
  rw [sum_filter_swap (rootKeys K) K (fun p q => (keyChain K q).contains p)]
  have hone : ∀ q ∈ K,
      ((rootKeys K).filter (fun p => (keyChain K q).contains p)).length = 1 := by
    intro q hq
    rcases chainF_root (K.length + 1) q hq (keysShorter_le K q) with ⟨r, hr, hroot⟩
    have hrK : r ∈ K := chainF_mem_K (K.length + 1) q r hq hr
    apply filter_length_one (hnd.filter _) (List.mem_filter.mpr ⟨hrK, hroot⟩)
      (contains_iff_mem.mpr hr)
    intro x hx hqx
    have hxroot := (List.mem_filter.mp hx).2
    have hxchain : x ∈ chainF K (K.length + 1) q := contains_iff_mem.mp hqx
    rcases chainF_linear (K.length + 1) q x r hxchain hr with h | h
    · exact chainF_of_root hroot (K.length + 1) h
    · exact (chainF_of_root hxroot (K.length + 1) h).symm
  rw [List.map_congr_left hone, sum_map_one]

/-- Key-level partition theorem: with duplicate-free keys, the subtree sizes
of the root keys sum to the total number of keys — every key belongs to
exactly one root subtree. -/
theorem rootKeys_size_sum {K : List String} (hnd : K.Nodup) :
    ((rootKeys K).map (subtreeKeyCount K)).sum = K.length := by
  have hcong : ∀ p ∈ rootKeys K, subtreeKeyCount K p = fiberCount K p := by
    intro p hp
    exact subtreeKeyCount_eq_fiberCount hnd (keysLonger K p) p rfl (List.mem_filter.mp hp).1
  rw [List.map_congr_left hcong, sum_fiberCount_roots hnd]

/-- Unfolding equation of `countSubtree` with the `attach` scaffolding
removed. -/
theorem countSubtree_mk (e : Rec) (cs : List Node) :
    countSubtree (Node.mk e cs) = 1 + (cs.map countSubtree).sum := by
  rw [countSubtree]
  congr 1
  rw [List.attach_map_coe]

/-- The node built for dict entry `kv` has exactly the key-level subtree size
of its key. -/
theorem countSubtree_buildNodeF (m : List (String × Rec)) :
    ∀ fuel kv, countSubtree (buildNodeF m fuel kv) = sizeF (m.map Prod.fst) fuel kv.1 := by
  intro fuel
  induction fuel with
  | zero =>
    intro kv
    rw [buildNodeF, sizeF, countSubtree_mk]
    simp
  | succ f ih =>
    intro kv
    rw [buildNodeF, sizeF, countSubtree_mk]
    congr 1
    have h1 : childKeys (m.map Prod.fst) kv.1 =
        (m.filter (fun c => hasSlash c.1 && parentPath c.1 == kv.1)).map Prod.fst := by
      unfold childKeys
      rw [List.filter_map Prod.fst m]
      rfl
    rw [h1, List.map_map, List.map_map]
    congr 1
    apply List.map_congr_left
    intro c _
    exact ih c

/-- Dict entries are keyed by their record's non-empty path. -/
theorem buildNodesMap_inv (objs : List Rec) :
    ∀ kv ∈ buildNodesMap objs, kv.2.path = kv.1 ∧ kv.1 ≠ "" := by
  unfold buildNodesMap
  suffices h : ∀ acc : List (String × Rec), (∀ kv ∈ acc, kv.2.path = kv.1 ∧ kv.1 ≠ "") →
      ∀ kv ∈ objs.foldl (fun m o => if o.path = "" then m else insertKeyed m o.path o) acc,
        kv.2.path = kv.1 ∧ kv.1 ≠ "" by
    exact h [] (by intro kv hkv; cases hkv)
  induction objs with
  | nil => intro acc hacc; exact hacc
  | cons o objs ih =>
    intro acc hacc
    simp only [List.foldl_cons]
    by_cases hp : o.path = ""
    · rw [if_pos hp]
      exact ih acc hacc
    · rw [if_neg hp]
      apply ih
      intro kv hkv
      unfold insertKeyed at hkv
      by_cases hcont : ((acc.map Prod.fst).contains o.path) = true
      · rw [if_pos hcont] at hkv
        rcases List.mem_map.mp hkv with ⟨kv0, hkv0, rfl⟩
        by_cases heq : kv0.1 = o.path
        · rw [if_pos heq]
          exact ⟨rfl, hp⟩
        · rw [if_neg heq]
          exact hacc kv0 hkv0
      · rw [if_neg hcont] at hkv
        rcases List.mem_append.mp hkv with h | h
        · exact hacc kv h
        · rcases List.mem_singleton.mp h with rfl
          exact ⟨rfl, hp⟩

/-- The key list of one dict assignment: unchanged on overwrite, extended on
fresh insert. -/
theorem insertKeyed_keys (m : List (String × Rec)) (p : String) (o : Rec) :
    (insertKeyed m p o).map Prod.fst =
      if (m.map Prod.fst).contains p then m.map Prod.fst else m.map Prod.fst ++ [p] := by
  unfold insertKeyed
  by_cases hc : ((m.map Prod.fst).contains p) = true
  · rw [if_pos hc, if_pos hc, List.map_map]
    apply List.map_congr_left
    intro kv _
    by_cases he : kv.1 = p
    · show (if kv.1 = p then (p, o) else kv).1 = kv.1
      rw [if_pos he]
      exact he.symm
    · show (if kv.1 = p then (p, o) else kv).1 = kv.1
      rw [if_neg he]
  · rw [if_neg hc, if_neg hc, List.map_append]
    rfl

/-- Key membership after one dict assignment. -/
theorem mem_insertKeyed_keys {m : List (String × Rec)} {p k : String} {o : Rec} :
    k ∈ (insertKeyed m p o).map Prod.fst ↔ k ∈ m.map Prod.fst ∨ k = p := by
  rw [insertKeyed_keys]
  by_cases hc : ((m.map Prod.fst).contains p) = true
  · rw [if_pos hc]
    constructor
    · exact Or.inl
    · rintro (h | rfl)
      · exact h
      · exact contains_iff_mem.mp hc
  · rw [if_neg hc]
    simp

/-- The dict keys are exactly the non-empty record paths. -/
theorem mem_buildNodesMap_keys {objs : List Rec} {p : String} :
    p ∈ (buildNodesMap objs).map Prod.fst ↔ p ≠ "" ∧ ∃ o ∈ objs, o.path = p := by
  unfold buildNodesMap
  suffices h : ∀ acc : List (String × Rec),
      (p ∈ ((objs.foldl (fun m o => if o.path = "" then m else insertKeyed m o.path o)
          acc).map Prod.fst) ↔
        p ∈ acc.map Prod.fst ∨ (p ≠ "" ∧ ∃ o ∈ objs, o.path = p)) by
    have h2 := h []
    simpa using h2
  induction objs with
  | nil =>
    intro acc
    simp
  | cons o objs ih =>
    intro acc
    simp only [List.foldl_cons]
    by_cases hp : o.path = ""
    · rw [if_pos hp, ih acc]
      constructor
      · rintro (h | ⟨hne, o2, ho2, rfl⟩)
        · exact Or.inl h
        · exact Or.inr ⟨hne, o2, List.mem_cons_of_mem _ ho2, rfl⟩
      · rintro (h | ⟨hne, o2, ho2, rfl⟩)
        · exact Or.inl h
        · rcases List.mem_cons.mp ho2 with rfl | ho2
          · exact absurd hp hne
          · exact Or.inr ⟨hne, o2, ho2, rfl⟩
    · rw [if_neg hp, ih _]
      rw [mem_insertKeyed_keys]
      constructor
      · rintro ((h | rfl) | ⟨hne, o2, ho2, rfl⟩)
        · exact Or.inl h
        · exact Or.inr ⟨hp, o, List.mem_cons_self o objs, rfl⟩
        · exact Or.inr ⟨hne, o2, List.mem_cons_of_mem _ ho2, rfl⟩
      · rintro (h | ⟨hne, o2, ho2, rfl⟩)
        · exact Or.inl (Or.inl h)
        · rcases List.mem_cons.mp ho2 with rfl | ho2
          · exact Or.inl (Or.inr rfl)
          · exact Or.inr ⟨hne, o2, ho2, rfl⟩

/-- The dict keys never repeat (Python dict keys are unique). -/
theorem buildNodesMap_keys_nodup (objs : List Rec) :
    ((buildNodesMap objs).map Prod.fst).Nodup := by
  unfold buildNodesMap
  suffices h : ∀ acc : List (String × Rec), (acc.map Prod.fst).Nodup →
      ((objs.foldl (fun m o => if o.path = "" then m else insertKeyed m o.path o)
        acc).map Prod.fst).Nodup by
    exact h [] (by simp)
  induction objs with
  | nil => intro acc hacc; exact hacc
  | cons o objs ih =>
    intro acc hacc
    simp only [List.foldl_cons]
    by_cases hp : o.path = ""
    · rw [if_pos hp]
      exact ih acc hacc
    · rw [if_neg hp]
      apply ih
      rw [insertKeyed_keys]
      by_cases hc : ((acc.map Prod.fst).contains o.path) = true
      · rw [if_pos hc]
        exact hacc
      · rw [if_neg hc]
        rw [List.nodup_append]
        refine ⟨hacc, List.nodup_singleton _, ?_⟩
        intro x hx hx2
        rcases List.mem_singleton.mp hx2 with rfl
        exact absurd (contains_iff_mem.mpr hx) (by simpa using hc)

/-- With unique paths, the dict is the path-keyed record list in input
order — no overwrite ever fires. -/
theorem buildNodesMap_eq {objs : List Rec} (hnd : pathsNodup objs) :
    buildNodesMap objs =
      (objs.filter (fun o => o.path ≠ "")).map (fun o => (o.path, o)) := by
  unfold buildNodesMap
  unfold pathsNodup at hnd
  suffices h : ∀ (objs2 : List Rec) (acc : List (String × Rec)),
      (∀ o2 ∈ objs2, o2.path ≠ "" → o2.path ∉ acc.map Prod.fst) →
      ((objs2.filter (fun o => o.path ≠ "")).map (fun o => o.path)).Nodup →
      objs2.foldl (fun m o => if o.path = "" then m else insertKeyed m o.path o) acc =
        acc ++ (objs2.filter (fun o => o.path ≠ "")).map (fun o => (o.path, o)) by
    have h2 := h objs [] (by intro o2 _ _ hmem; simp at hmem) hnd
    simpa using h2
  intro objs2
  induction objs2 with
  | nil =>
    intro acc _ _
    simp
  | cons o objs2 ih =>
    intro acc hfresh hnd2
    simp only [List.foldl_cons]
    by_cases hp : o.path = ""
    · rw [if_pos hp]
      have hfilt : (o :: objs2).filter (fun o => o.path ≠ "") =
          objs2.filter (fun o => o.path ≠ "") := by
        simp [List.filter_cons, hp]
      rw [hfilt] at hnd2 ⊢
      exact ih acc (fun o2 ho2 => hfresh o2 (List.mem_cons_of_mem _ ho2)) hnd2
    · rw [if_neg hp]
      have hfilt : (o :: objs2).filter (fun o => o.path ≠ "") =
          o :: objs2.filter (fun o => o.path ≠ "") := by
        simp [List.filter_cons, hp]
      rw [hfilt] at hnd2 ⊢
      simp only [List.map_cons] at hnd2
      have hnotin : o.path ∉ (acc.map Prod.fst) :=
        hfresh o (List.mem_cons_self o objs2) hp
      have hins : insertKeyed acc o.path o = acc ++ [(o.path, o)] := by
        unfold insertKeyed
        rw [if_neg (by simpa using (fun hcontains => hnotin (contains_iff_mem.mp hcontains)))]
      rw [hins]
      have hfresh2 : ∀ o2 ∈ objs2, o2.path ≠ "" →
          o2.path ∉ (acc ++ [(o.path, o)]).map Prod.fst := by
        intro o2 ho2 hne hmem
        rw [List.map_append, List.mem_append] at hmem
        rcases hmem with hmem | hmem
        · exact hfresh o2 (List.mem_cons_of_mem _ ho2) hne hmem
        · rcases List.mem_singleton.mp hmem with heq
          apply (List.nodup_cons.mp hnd2).1
          have heq2 : o2.path = o.path := heq
          rw [← heq2]
          exact List.mem_map.mpr ⟨o2, List.mem_filter.mpr ⟨ho2, by simpa using hne⟩, rfl⟩
      rw [ih (acc ++ [(o.path, o)]) hfresh2 (List.nodup_cons.mp hnd2).2]
      simp

/-- The forest's subtree-size total, expressed at key level. -/
theorem buildTree_roots_countSum (objs : List Rec) :
    ((buildTree objs).1.map countSubtree).sum =
      ((rootKeys ((buildNodesMap objs).map Prod.fst)).map
        (subtreeKeyCount ((buildNodesMap objs).map Prod.fst))).sum := by
  unfold buildTree rootKeys subtreeKeyCount
  rw [List.map_map]
  rw [List.filter_map Prod.fst (buildNodesMap objs), List.map_map]
  have hlen : ((buildNodesMap objs).map Prod.fst).length = (buildNodesMap objs).length :=
    List.length_map _ _
  rw [hlen]
  congr 1
  apply List.map_congr_left
  intro kv _
  exact countSubtree_buildNodeF (buildNodesMap objs) ((buildNodesMap objs).length + 1) kv

/-- With unique paths, the subtree sizes of the built roots sum to the number
of records that carry a path. -/
theorem rootsCountSum_eq_filterLength {objs : List Rec} (hnd : pathsNodup objs) :
    ((buildTree objs).1.map countSubtree).sum =
      (objs.filter (fun o => o.path ≠ "")).length := by
  rw [buildTree_roots_countSum]
  have hK : ((buildNodesMap objs).map Prod.fst) =
      (objs.filter (fun o => o.path ≠ "")).map (fun o => o.path) := by
    rw [buildNodesMap_eq hnd, List.map_map]
    rfl
  rw [hK]
  rw [rootKeys_size_sum hnd]
  exact List.length_map _ _

/-- Claim C6: after tree building, the subtree sizes of all roots (each
computed by `_count_subtree` as 1 plus the children's subtree sizes) sum to
the number of records with a resolvable non-empty path, under the spec's
paths-unique-per-ingestion invariant. -/
theorem C6_theorem (objs : List Rec) (hnd : pathsNodup objs) :
    ((buildTree objs).1.map countSubtree).sum =
      (objs.filter (fun o => o.path ≠ "")).length :=
  rootsCountSum_eq_filterLength hnd

/-- Witness for `C6_theorem` on the round-trip record set: four placeable
records, and the root subtree sizes sum to four. -/
theorem C6_witness :
    pathsNodup objsRoundTrip ∧
    ((buildTree objsRoundTrip).1.map countSubtree).sum =
      (objsRoundTrip.filter (fun o => o.path ≠ "")).length :=
  ⟨by unfold pathsNodup; decide, C6_theorem objsRoundTrip (by unfold pathsNodup; decide)⟩

/-- The greedy step adds exactly the assigned root's size to the total node
count. -/
theorem assignRoot_nodeCount_sum {sizes : String → Nat} {ds : List Diagram} {p : String}
    (hne : ds ≠ []) :
    ((assignRoot sizes ds p).map Diagram.nodeCount).sum =
      (ds.map Diagram.nodeCount).sum + sizes p := by
  have hperm := List.perm_insertionSort diagOrder ds
  rcases assignRoot_eq sizes ds p with ⟨hnil, _⟩ | ⟨d0, rest, hsort, heq⟩
  · exfalso
    have hlen := hperm.length_eq
    rw [hnil] at hlen
    exact hne (List.length_eq_zero.mp hlen.symm)
  · rw [heq]
    have hp2 : (d0 :: rest).Perm ds := hsort ▸ hperm
    have hsum := (hp2.map Diagram.nodeCount).sum_eq
    simp only [List.map_cons, List.sum_cons] at hsum ⊢
    simp only [← hsum]
    omega

/-- The greedy step keeps the number of diagrams. -/
theorem assignRoot_length {sizes : String → Nat} {ds : List Diagram} {p : String} :
    (assignRoot sizes ds p).length = ds.length := by
  have hperm := List.perm_insertionSort diagOrder ds
  rcases assignRoot_eq sizes ds p with ⟨hnil, heq⟩ | ⟨d0, rest, hsort, heq⟩
  · rw [heq]
    have hlen := hperm.length_eq
    rw [hnil] at hlen
    simpa using hlen
  · rw [heq]
    have hlen := hperm.length_eq
    rw [hsort] at hlen
    simpa using hlen

/-- The whole greedy fold accumulates the sizes of all assigned roots. -/
theorem foldl_assignRoot_sum {sizes : String → Nat} :
    ∀ (ps : List String) (ds : List Diagram), ds ≠ [] →
      ((ps.foldl (assignRoot sizes) ds).map Diagram.nodeCount).sum =
        (ds.map Diagram.nodeCount).sum + (ps.map sizes).sum := by
  intro ps
  induction ps with
  | nil =>
    intro ds _
    simp
  | cons p ps ih =>
    intro ds hne
    simp only [List.foldl_cons, List.map_cons, List.sum_cons]
    have hne2 : assignRoot sizes ds p ≠ [] := by
      intro h
      have hl := @assignRoot_length sizes ds p
      rw [h] at hl
      exact hne (List.length_eq_zero.mp hl.symm)
    rw [ih _ hne2, assignRoot_nodeCount_sum hne]
    omega

/-- Member tagging never changes any node count. -/
theorem addMember_nodeCount (ds : List Diagram) (path gid : String) :
    (addMember ds path gid).map Diagram.nodeCount = ds.map Diagram.nodeCount := by
  induction ds with
  | nil => rfl
  | cons d ds ih =>
    rw [addMember]
    by_cases hm : matchesDiagram d path = true
    · rw [hm]
      simp
    · rw [Bool.not_eq_true] at hm
      rw [hm]
      simp [ih]

/-- The member-tagging pass never changes any node count. -/
theorem foldl_addMember_nodeCount (objs : List Rec) :
    ∀ ds : List Diagram,
      ((objs.foldl (fun ds o => if o.gid = "" then ds else addMember ds o.path o.gid)
        ds).map Diagram.nodeCount) = ds.map Diagram.nodeCount := by
  induction objs with
  | nil =>
    intro ds
    rfl
  | cons o objs ih =>
    intro ds
    simp only [List.foldl_cons]
    rw [ih]
    by_cases hg : o.gid = ""
    · rw [if_pos hg]
    · rw [if_neg hg, addMember_nodeCount]

/-- Fresh diagrams have zero total node count. -/
theorem mkEmptyDiagrams_nodeCount_sum (n : Nat) :
    ((mkEmptyDiagrams n).map Diagram.nodeCount).sum = 0 := by
  apply List.sum_eq_zero
  intro x hx
  rcases List.mem_map.mp hx with ⟨d, hd, rfl⟩
  exact (mem_mkEmptyDiagrams hd).2.2

/-- There are exactly `n` fresh diagrams. -/
theorem mkEmptyDiagrams_length (n : Nat) : (mkEmptyDiagrams n).length = n := by
  unfold mkEmptyDiagrams
  simp

/-- When every root has a path, `root_paths` is just the path sequence. -/
theorem rootPathsOf_eq_map {roots : List Node} (h : ∀ r ∈ roots, nodePath r ≠ "") :
    rootPathsOf roots = roots.map nodePath := by
  unfold rootPathsOf
  induction roots with
  | nil => rfl
  | cons r roots ih =>
    have hr : (if nodePath r = "" then none else some (nodePath r)) = some (nodePath r) :=
      if_neg (h r (List.mem_cons_self r roots))
    simp only [List.filterMap_cons, hr, List.map_cons]
    rw [ih (fun r2 hr2 => h r2 (List.mem_cons_of_mem _ hr2))]

/-- The `root_sizes` fold leaves keys it never writes unchanged. -/
theorem rootSizesFun_untouched :
    ∀ (roots : List Node) (m : String → Nat) (p : String),
      (∀ r ∈ roots, nodePath r ≠ p) →
      (roots.foldl
        (fun m r =>
          if nodePath r = "" then m
          else fun q => if q = nodePath r then countSubtree r else m q) m) p = m p := by
  intro roots
  induction roots with
  | nil =>
    intro m p _
    rfl
  | cons r roots ih =>
    intro m p hne
    simp only [List.foldl_cons]
    refine (ih _ p (fun r2 h2 => hne r2 (List.mem_cons_of_mem _ h2))).trans ?_
    by_cases h0 : nodePath r = ""
    · rw [if_pos h0]
    · rw [if_neg h0]
      exact if_neg (fun h => hne r (List.mem_cons_self r roots) h.symm)

/-- With duplicate-free root paths, `root_sizes` maps each root's path to
that root's subtree size. -/
theorem rootSizesFun_eq {roots : List Node} (hnd : (roots.map nodePath).Nodup)
    {r : Node} (hr : r ∈ roots) (hne : nodePath r ≠ "") :
    rootSizesFun roots (nodePath r) = countSubtree r := by
  unfold rootSizesFun
  rcases List.append_of_mem hr with ⟨l1, l2, rfl⟩
  rw [List.foldl_append]
  simp only [List.foldl_cons]
  have hfresh : ∀ r2 ∈ l2, nodePath r2 ≠ nodePath r := by
    intro r2 h2 heq
    rw [List.map_append, List.map_cons, List.nodup_append] at hnd
    have hh := (List.nodup_cons.mp hnd.2.1).1
    apply hh
    rw [← heq]
    exact List.mem_map.mpr ⟨r2, h2, rfl⟩
  refine (rootSizesFun_untouched l2 _ _ hfresh).trans ?_
  rw [if_neg hne]
  simp

/-- With duplicate-free non-empty root paths, summing `root_sizes` over
`root_paths` is summing the subtree sizes of the roots. -/
theorem rootPaths_sizes_sum {roots : List Node} (hnd : (roots.map nodePath).Nodup)
    (hne : ∀ r ∈ roots, nodePath r ≠ "") :
    ((rootPathsOf roots).map (rootSizesFun roots)).sum = (roots.map countSubtree).sum := by
  rw [rootPathsOf_eq_map hne, List.map_map]
  congr 1
  apply List.map_congr_left
  intro r hr
  exact rootSizesFun_eq hnd hr (hne r hr)

/-- The paths of the built roots are exactly the root keys of the dict. -/
theorem buildTree_roots_paths (objs : List Rec) :
    (buildTree objs).1.map nodePath =
      rootKeys ((buildNodesMap objs).map Prod.fst) := by
  unfold buildTree rootKeys
  rw [List.map_map, List.filter_map Prod.fst]
  apply List.map_congr_left
  intro kv hkv
  exact (buildNodesMap_inv objs kv (List.mem_of_mem_filter hkv)).1

/-- Built roots carry duplicate-free paths. -/
theorem buildTree_roots_nodup (objs : List Rec) :
    ((buildTree objs).1.map nodePath).Nodup := by
  rw [buildTree_roots_paths]
  exact (buildNodesMap_keys_nodup objs).filter _

/-- Built roots carry non-empty paths. -/
theorem buildTree_roots_ne_empty (objs : List Rec) :
    ∀ r ∈ (buildTree objs).1, nodePath r ≠ "" := by
  intro r hr
  have hmem : nodePath r ∈ (buildTree objs).1.map nodePath :=
    List.mem_map.mpr ⟨r, hr, rfl⟩
  rw [buildTree_roots_paths] at hmem
  have hK : nodePath r ∈ (buildNodesMap objs).map Prod.fst := List.mem_of_mem_filter hmem
  exact (mem_buildNodesMap_keys.mp hK).1

/-- With unique paths, the diagram node counts produced by `_build_diagrams`
on the built forest sum to the number of records that carry a path —
regardless of the requested diagram count. -/
theorem diagNodeCountSum {objs : List Rec} (hnd : pathsNodup objs) (k : Nat) :
    ((buildDiagrams objs (buildTree objs).1 k).map Diagram.nodeCount).sum =
      (objs.filter (fun o => o.path ≠ "")).length := by
  have hrne := buildTree_roots_ne_empty objs
  have hrnd := buildTree_roots_nodup objs
  simp only [buildDiagrams]
  by_cases hempty : (rootPathsOf (buildTree objs).1).isEmpty
  · simp only [hempty, if_true]
    rw [mkEmptyDiagrams_nodeCount_sum]
    have hnil : rootPathsOf (buildTree objs).1 = [] := List.isEmpty_iff.mp hempty
    rw [rootPathsOf_eq_map hrne] at hnil
    have hroots : (buildTree objs).1 = [] := List.map_eq_nil_iff.mp hnil
    have hsum := rootsCountSum_eq_filterLength hnd
    rw [hroots] at hsum
    exact hsum
  · simp only [hempty, Bool.false_eq_true, if_false]
    rw [foldl_addMember_nodeCount]
    have h0 : rootPathsOf (buildTree objs).1 ≠ [] := by
      intro h
      rw [h] at hempty
      simp at hempty
    have h1 : 0 < (rootPathsOf (buildTree objs).1).length := List.length_pos.mpr h0
    have hinit :
        mkEmptyDiagrams (min (max 1 k) (rootPathsOf (buildTree objs).1).length) ≠ [] := by
      intro h
      have hl := mkEmptyDiagrams_length (min (max 1 k) (rootPathsOf (buildTree objs).1).length)
      rw [h] at hl
      simp at hl
      omega
    rw [foldl_assignRoot_sum _ _ hinit, mkEmptyDiagrams_nodeCount_sum]
    have hperm := (List.perm_insertionSort (rootOrder (rootSizesFun (buildTree objs).1))
      (rootPathsOf (buildTree objs).1)).map (rootSizesFun (buildTree objs).1)
    rw [hperm.sum_eq, rootPaths_sizes_sum hrnd hrne,
      rootsCountSum_eq_filterLength hnd]
    omega

/-- Claim C2 (counterexample): on the non-empty record set holding one record
with path `A` and no identity, the diagrams' node counts sum to `1` (the
record is placed in the tree and counted), but no record has both a non-empty
identity and a resolvable path — the claimed equality fails. -/
theorem C2_counterexample :
    ¬ (((buildDiagrams [recNoGid] (buildTree [recNoGid]).1 1).map Diagram.nodeCount).sum =
        ([recNoGid].filter (fun o => o.gid ≠ "" ∧ o.path ≠ "")).length) := by
  intro h
  rw [diagNodeCountSum (by unfold pathsNodup; decide) 1] at h
  revert h
  decide

/-- Claim C2 (amended): for every non-empty record set with unique paths and
every diagram count, after partitioning the diagrams' running node-count
totals sum to the number of records with a resolvable (non-empty) path —
whether or not those records carry an identity.  (The identity only gates
membership tagging, never the node counts.) -/
theorem C2_theorem (objs : List Rec) (k : Nat) (_hne : objs ≠ []) (hnd : pathsNodup objs) :
    ((buildDiagrams objs (buildTree objs).1 k).map Diagram.nodeCount).sum =
      (objs.filter (fun o => o.path ≠ "")).length :=
  diagNodeCountSum hnd k

/-- Witness for `C2_theorem` on the round-trip record set with two requested
diagrams. -/
theorem C2_witness :
    ((buildDiagrams objsRoundTrip (buildTree objsRoundTrip).1 2).map Diagram.nodeCount).sum =
      (objsRoundTrip.filter (fun o => o.path ≠ "")).length :=
  C2_theorem objsRoundTrip 2 (by decide) (by unfold pathsNodup; decide)

/-- One row-emitting step either keeps the accumulated rows or appends one
row derived from a child with a truthy nested path and identity and an
identified parent. -/
theorem hierarchyRowStep_cases (ref : String → Option Rec) (condition : String)
    (acc : List HierarchyRow × List String) (child : Rec) :
    (hierarchyRowStep ref condition acc child).1 = acc.1 ∨
    ∃ parent, ref (parentPath child.path) = some parent ∧ parent.gid ≠ "" ∧
      child.gid ≠ "" ∧ child.path ≠ "" ∧ hasSlash child.path = true ∧
      (hierarchyRowStep ref condition acc child).1 =
        acc.1 ++ [{ subject := parent, predicate := "part_of", object := child,
                    evidence := [], subsystem := "Scene", condition := condition }] := by
  unfold hierarchyRowStep
  by_cases hskip : (child.path = "" ∨ hasSlash child.path = false ∨ child.gid = "")
  · rw [if_pos hskip]
    exact Or.inl rfl
  · rw [if_neg hskip]
    push_neg at hskip
    obtain ⟨h1, h2, h3⟩ := hskip
    cases hre : ref (parentPath child.path) with
    | none => exact Or.inl rfl
    | some parent =>
      dsimp only
      by_cases hpg : parent.gid = ""
      · rw [if_pos hpg]
        exact Or.inl rfl
      · rw [if_neg hpg]
        by_cases hseen : (acc.2.contains (parent.gid ++ "|part_of|" ++ child.gid)) = true
        · rw [if_pos hseen]
          exact Or.inl rfl
        · rw [if_neg hseen]
          exact Or.inr ⟨parent, rfl, hpg, h3, h1, by simpa using h2, rfl⟩

/-- Soundness of the Relationship Deriver: every emitted row has a child with
a non-empty identity and a parent record found at the child's trimmed-parent
path with a non-empty identity. -/
theorem buildHierarchyRows_sound (objs : List Rec) (condition : String) :
    ∀ row ∈ buildHierarchyRows objs condition,
      row.object.gid ≠ "" ∧ row.subject.gid ≠ "" ∧
      pathToRef objs (parentPath row.object.path) = some row.subject := by
  unfold buildHierarchyRows
  suffices h : ∀ (objs2 : List Rec) (acc : List HierarchyRow × List String),
      (∀ row ∈ acc.1, row.object.gid ≠ "" ∧ row.subject.gid ≠ "" ∧
        pathToRef objs (parentPath row.object.path) = some row.subject) →
      ∀ row ∈ (objs2.foldl (hierarchyRowStep (pathToRef objs) condition) acc).1,
        row.object.gid ≠ "" ∧ row.subject.gid ≠ "" ∧
        pathToRef objs (parentPath row.object.path) = some row.subject by
    exact fun row hrow => h objs ([], []) (by intro row2 h2; cases h2) row hrow
  intro objs2
  induction objs2 with
  | nil =>
    intro acc hacc
    exact hacc
  | cons o objs2 ih =>
    intro acc hacc
    simp only [List.foldl_cons]
    apply ih
    intro row hrow
    rcases hierarchyRowStep_cases (pathToRef objs) condition acc o with heq | ⟨parent, hre, hpg, hcg, _, _, heq⟩
    · rw [heq] at hrow
      exact hacc row hrow
    · rw [heq] at hrow
      rcases List.mem_append.mp hrow with h | h
      · exact hacc row h
      · rcases List.mem_singleton.mp h with rfl
        exact ⟨hcg, hpg, hre⟩

/-- Claim C7: on the round-trip record set with paths `A`, `A/B`, `A/B/C`,
`D` and identities `a`, `ab`, `abc`, `d`, the forest has exactly the roots
`A` and `D` with subtree sizes `3` and `1`, and the Relationship Deriver
emits exactly the two deduplicated `part_of` edges `(a, ab)` and
`(ab, abc)`; in general every emitted edge has a non-empty child identity
and a parent record, found at the child's trimmed-parent path, with a
non-empty identity. -/
theorem C7_theorem :
    ((buildTree objsRoundTrip).1.map nodePath = ["A", "D"] ∧
     (buildTree objsRoundTrip).1.map countSubtree = [3, 1] ∧
     (buildHierarchyRows objsRoundTrip "Cond").map (fun r => (r.subject.gid, r.object.gid)) =
       [("a", "ab"), ("ab", "abc")]) ∧
    ∀ (objs : List Rec) (condition : String), ∀ row ∈ buildHierarchyRows objs condition,
      row.object.gid ≠ "" ∧ row.subject.gid ≠ "" ∧
      pathToRef objs (parentPath row.object.path) = some row.subject := by
  refine ⟨⟨rfl, ?_, rfl⟩, buildHierarchyRows_sound⟩
  show (List.map countSubtree
    [Node.mk (mkRec "A" "a") [Node.mk (mkRec "A/B" "ab") [Node.mk (mkRec "A/B/C" "abc") []]],
     Node.mk (mkRec "D" "d") []]) = [3, 1]
  simp [countSubtree_mk]

/-- Witness for `C7_theorem`'s general part at the concrete first row of the
round-trip derivation. -/
theorem C7_witness :
    rowAB.object.gid ≠ "" ∧ rowAB.subject.gid ≠ "" ∧
    pathToRef objsRoundTrip (parentPath rowAB.object.path) = some rowAB.subject :=
  C7_theorem.2 objsRoundTrip "Cond" rowAB (by decide)

/-- Claim C8: a record whose path contains a separator but whose computed
parent path matches no record is promoted to a root (not dropped, not an
error); in particular the single record with path `X/Y` and no record at
path `X` yields exactly one root whose path is `X/Y`. -/
theorem C8_theorem :
    (∀ (objs : List Rec) (o : Rec), o ∈ objs → o.path ≠ "" → hasSlash o.path = true →
      (∀ o2 ∈ objs, o2.path ≠ parentPath o.path) →
      o.path ∈ (buildTree objs).1.map nodePath) ∧
    (buildTree objsOrphan).1.map nodePath = ["X/Y"] := by
  constructor
  · intro objs o ho hne _ hnp
    rw [buildTree_roots_paths]
    apply List.mem_filter.mpr
    refine ⟨mem_buildNodesMap_keys.mpr ⟨hne, o, ho, rfl⟩, ?_⟩
    unfold isRootKey
    have hpar : parentPath o.path ∉ (buildNodesMap objs).map Prod.fst := by
      intro hmem
      rcases (mem_buildNodesMap_keys.mp hmem).2 with ⟨o2, ho2, heq⟩
      exact hnp o2 ho2 heq
    have hcont : ((buildNodesMap objs).map Prod.fst).contains (parentPath o.path) = false := by
      rw [← Bool.not_eq_true]
      intro hcc
      exact hpar (contains_iff_mem.mp hcc)
    rw [hcont]
    simp
  · rfl

/-- Witness for `C8_theorem`'s general part: the orphan record with path
`X/Y` is itself promoted to a root. -/
theorem C8_witness :
    (mkRec "X/Y" "xy").path ∈ (buildTree objsOrphan).1.map nodePath :=
  C8_theorem.1 objsOrphan (mkRec "X/Y" "xy") (by decide) (by decide) (by decide)
    (by decide)
